import Mathlib

/-!
# GitAhead: configuration resolution and credential-helper bridge

A shallow embedding of `src/conf/Settings.cpp` (default lookup, scoped
overrides, lexer detection) and `src/cred/GitCredential.cpp` (host and
protocol extraction, helper response parsing), followed by the properties
established about them.

Conventions of the embedding:

* `QString` is `String`; text processing is done on the character list.
* `QVariant` is a closed value tree; the converting comparison `==` of the
  variant library is a parameter (`Comparison`) of the functions that use it.
* `QVariantMap` is an association list read through `find?`; `keys` lists the
  keys in the order the map enumerates them.
* Other library services the code calls but does not define (wildcard
  matching, URL parsing) are parameters of the functions that use them; simple concrete
  versions are provided to evaluate examples.
-/

namespace GitAhead

/-! ## Strings -/

/-- QString::split(sep) keeping empty parts, on character lists: the result
always has at least one part. -/
def splitChars (sep : Char) : List Char → List (List Char)
  | [] => [[]]
  | c :: cs =>
    if c = sep then [] :: splitChars sep cs
    else
      match splitChars sep cs with
      | [] => [[c]]
      | h :: t => (c :: h) :: t

/-- QString::split(sep): all parts, empty ones included. -/
def split (sep : Char) (s : String) : List String :=
  (splitChars sep s.data).map String.mk

/-- QString::split(sep, QString::SkipEmptyParts) on character lists. -/
def segmentsChars (sep : Char) (l : List Char) : List (List Char) :=
  (splitChars sep l).filter (fun p => !p.isEmpty)

/-- QString::split(sep, QString::SkipEmptyParts). -/
def splitSkipEmpty (sep : Char) (s : String) : List String :=
  (segmentsChars sep s.data).map String.mk

/-- QStringList::join(sep). -/
def join (sep : String) : List String → String
  | [] => ""
  | [a] => a
  | a :: b :: rest => a ++ sep ++ join sep (b :: rest)

/-! ## Variants -/

mutual
/-- QVariant: the invalid (null) variant, scalars, lists and maps. -/
inductive QVariant where
  | invalid : QVariant
  | bool : Bool → QVariant
  | num : Int → QVariant
  | str : String → QVariant
  | list : QVariantList → QVariant
  | map : QVariantMap → QVariant
  deriving DecidableEq
/-- QVariantList. -/
inductive QVariantList where
  | nil : QVariantList
  | cons : QVariant → QVariantList → QVariantList
  deriving DecidableEq
/-- QVariantMap, as an association list. -/
inductive QVariantMap where
  | nil : QVariantMap
  | cons : String → QVariant → QVariantMap → QVariantMap
  deriving DecidableEq
end

namespace QVariantMap

/-- The entry stored under a key, if any. -/
def find? : QVariantMap → String → Option QVariant
  | nil, _ => none
  | cons k v rest, key => if k = key then some v else find? rest key

/-- QMap::contains. -/
def contains (m : QVariantMap) (key : String) : Bool :=
  (m.find? key).isSome

/-- QMap::value: the stored variant, or a default-constructed (invalid) one. -/
def value (m : QVariantMap) (key : String) : QVariant :=
  (m.find? key).getD QVariant.invalid

/-- QMap::keys, in the enumeration order of the map. -/
def keys : QVariantMap → List String
  | nil => []
  | cons k _ rest => k :: keys rest

end QVariantMap

namespace QVariant

/-- QVariant::toMap: the map held by the variant, the empty map otherwise. -/
def toMap : QVariant → QVariantMap
  | map m => m
  | _ => QVariantMap.nil

/-- QVariant::toString: text of a scalar, the empty string otherwise. -/
def toString : QVariant → String
  | str s => s
  | bool b => if b then "true" else "false"
  | num n => ToString.toString n
  | _ => ""

end QVariant

mutual
/-- A variant is a configuration value when no null occurs anywhere in it. -/
def QVariant.isConfigValue : QVariant → Bool
  | .invalid => false
  | .bool _ => true
  | .num _ => true
  | .str _ => true
  | .list l => l.isConfigValue
  | .map m => m.isConfigValue
/-- Every element is a configuration value. -/
def QVariantList.isConfigValue : QVariantList → Bool
  | .nil => true
  | .cons v rest => v.isConfigValue && rest.isConfigValue
/-- Every stored value is a configuration value. -/
def QVariantMap.isConfigValue : QVariantMap → Bool
  | .nil => true
  | .cons _ v rest => v.isConfigValue && rest.isConfigValue
end

/-! ## Default lookup (Settings.cpp, anonymous namespace) -/

/-- The while loop of lookup, entered with the remaining segment list. Each
iteration reads list.first(); `none` records a read of the head of an empty
list. -/
def lookupLoop : QVariantMap → List String → Option QVariant
  | _, [] => none
  | map, first :: list =>
    if map.contains first then
      let result := map.value first
      if list.isEmpty then some result
      else lookupLoop result.toMap list
    else some QVariant.invalid

/-- The function lookup(root, key), with a failed head read made visible. -/
def lookupChecked (root : QVariantMap) (key : String) : Option QVariant :=
  let list := splitSkipEmpty '/' key
  if list.isEmpty then some (QVariant.map root)
  else lookupLoop root list

/-- The function lookup(root, key): look up the variant at key relative to root. -/
def lookup (root : QVariantMap) (key : String) : QVariant :=
  (lookupChecked root key).getD QVariant.invalid

/-- The lookup contract in the words of the specification: walk the mapping
chain one segment at a time; fail when a segment is missing or the value at
hand is not a mapping while segments remain. -/
def specWalk : QVariant → List String → Option QVariant
  | v, [] => some v
  | QVariant.map m, seg :: rest =>
    match m.find? seg with
    | some v => specWalk v rest
    | none => none
  | _, _ :: _ => none

/-! ## The persisted override store -/

/-- Modelled from the spec: the persisted override store reached through
QSettings, a key/value store with get, set, remove and contains, addressed by
group path plus key. An address is the sequence of non-empty path segments of
the group followed by those of the key, the way lookup reads a path; every key
text is accepted, and remove deletes the entry at the address only. -/
abbrev Store := List (List String × QVariant)

namespace QSettings

/-- The address of a key under a group. -/
def actualKey (group key : String) : List String :=
  splitSkipEmpty '/' group ++ splitSkipEmpty '/' key

/-- The value stored at an address, if any. -/
def find? : Store → List String → Option QVariant
  | [], _ => none
  | (k, v) :: rest, address => if k = address then some v else find? rest address

/-- The store without the entry at an address. -/
def erase : Store → List String → Store
  | [], _ => []
  | (k, v) :: rest, address =>
    if k = address then erase rest address else (k, v) :: erase rest address

/-- QSettings::contains, after beginGroup(group). -/
def contains (store : Store) (group key : String) : Bool :=
  (find? store (actualKey group key)).isSome

/-- QSettings::value(key, defaultValue), after beginGroup(group). -/
def value (store : Store) (group key : String) (defaultValue : QVariant) : QVariant :=
  (find? store (actualKey group key)).getD defaultValue

/-- QSettings::remove, after beginGroup(group). -/
def remove (store : Store) (group key : String) : Store :=
  erase store (actualKey group key)

/-- QSettings::setValue, after beginGroup(group). -/
def setValue (store : Store) (group key : String) (value : QVariant) : Store :=
  (actualKey group key, value) :: erase store (actualKey group key)

end QSettings

/-! ## Variant comparison -/

/-- QVariant::operator==, a service of the variant library that setValue
calls: eq a b stands for a == b. The library converts between types before it
compares, so variants of different types can be equal (the text "5" and the
number 5). Relied on here: a variant is equal to itself, and the null variant
is equal to no other variant, on either side. -/
structure Comparison where
  eq : QVariant → QVariant → Bool
  refl : ∀ v, eq v v = true
  null_right : ∀ v, eq v QVariant.invalid = true → v = QVariant.invalid
  null_left : ∀ v, eq QVariant.invalid v = true → v = QVariant.invalid

/-- The comparison without conversions, under which a variant is equal to
itself only; the library agrees with it when one side is null, on two numbers
and on a number against a mapping. -/
def Comparison.exact : Comparison :=
  Comparison.mk (fun a b => decide (a = b)) (fun v => by simp)
    (fun v h => by simpa using h) (fun v h => by simpa [eq_comm] using h)

/-- A sample comparison with one conversion, between a number and its decimal
text: the text "5" and the number 5 are equal under it. It serves to evaluate
cases in which variants of different types compare equal. -/
def Comparison.decimal : Comparison :=
  Comparison.mk
    (fun a b => decide (a = b) ||
      (match a, b with
        | QVariant.num n, QVariant.str t => decide (ToString.toString n = t)
        | QVariant.str t, QVariant.num n => decide (t = ToString.toString n)
        | _, _ => false))
    (fun v => by simp)
    (fun v h => by cases v <;> simp_all)
    (fun v h => by cases v <;> simp_all)

/-! ## Settings (Settings.cpp) -/

/-- The Settings object: its members, the content of the persisted store its
QSettings instances read and write, and the number of settingsChanged signals
emitted so far. -/
structure Settings where
  mDefaults : QVariantMap
  mGroup : List String
  mCurrentMap : QVariantMap
  store : Store
  emitted : Nat
  deriving DecidableEq

namespace Settings

/-- The constructor, given the parsed configuration documents and the store. -/
def create (defaults : QVariantMap) (store : Store) : Settings :=
  Settings.mk defaults [] defaults store 0

/-- Settings::group. -/
def group (s : Settings) : String :=
  join "/" s.mGroup

/-- Settings::beginGroup. -/
def beginGroup (s : Settings) (name : String) : Settings :=
  let mGroup := s.mGroup ++ [name]
  Settings.mk s.mDefaults mGroup (lookup s.mDefaults (join "/" mGroup)).toMap s.store s.emitted

/-- Settings::endGroup; `none` when mGroup is empty (removeLast on an empty
list). -/
def endGroup (s : Settings) : Option Settings :=
  if s.mGroup.isEmpty then none
  else
    let mGroup := s.mGroup.dropLast
    some (Settings.mk s.mDefaults mGroup (lookup s.mDefaults (join "/" mGroup)).toMap
      s.store s.emitted)

/-- Settings::defaultValue. -/
def defaultValue (s : Settings) (key : String) : QVariant :=
  lookup s.mCurrentMap key

/-- Settings::value. -/
def value (s : Settings) (key : String) : QVariant :=
  QSettings.value s.store s.group key (s.defaultValue key)

/-- Settings::setValue; cmp.eq a b stands for the variant comparison a == b
and its negation for a != b. -/
def setValue (s : Settings) (cmp : Comparison) (key : String) (value : QVariant) :
    Settings :=
  if cmp.eq value (s.defaultValue key) then
    if QSettings.contains s.store s.group key then
      Settings.mk s.mDefaults s.mGroup s.mCurrentMap
        (QSettings.remove s.store s.group key) (s.emitted + 1)
    else s
  else
    if !cmp.eq value (QSettings.value s.store s.group key QVariant.invalid) then
      Settings.mk s.mDefaults s.mGroup s.mCurrentMap
        (QSettings.setValue s.store s.group key value) (s.emitted + 1)
    else s

/-- The number of settingsChanged signals emitted by one setValue call. -/
def notifications (s : Settings) (cmp : Comparison) (key : String) (value : QVariant) :
    Nat :=
  (s.setValue cmp key value).emitted - s.emitted

end Settings

/-- The operations of the settings engine that change its state. -/
inductive Op where
  | beginGroup (name : String) : Op
  | endGroup : Op
  | setValue (key : String) (value : QVariant) : Op
  deriving DecidableEq

/-- An operation names a proper key when, for setValue, the key has at least
one non-empty path segment. -/
def Op.hasProperKey : Op → Bool
  | Op.setValue key _ => !(splitSkipEmpty '/' key).isEmpty
  | _ => true

/-- One operation applied to the state; `none` when endGroup meets an empty
scope. -/
def Settings.step (s : Settings) (cmp : Comparison) : Op → Option Settings
  | Op.beginGroup name => some (s.beginGroup name)
  | Op.endGroup => s.endGroup
  | Op.setValue key value => some (s.setValue cmp key value)

/-- A sequence of operations applied in order. -/
def Settings.run (cmp : Comparison) : Settings → List Op → Option Settings
  | s, [] => some s
  | s, op :: ops =>
    match s.step cmp op with
    | some s' => Settings.run cmp s' ops
    | none => none

/-- The cached lookup root agrees with the current group. -/
def Settings.Coherent (s : Settings) : Prop :=
  s.mCurrentMap = (lookup s.mDefaults s.group).toMap

/-- The sparsity invariant: no fully-qualified key holds an override equal to
its resolved default. -/
def Sparse (defaults : QVariantMap) (store : Store) : Prop :=
  ∀ fullKey : String,
    QSettings.find? store (QSettings.actualKey "" fullKey) ≠ some (lookup defaults fullKey)

/-- The sequence beginGroup(group); setValue(key, value); endGroup(). -/
def Settings.setValueIn (s : Settings) (cmp : Comparison) (group key : String)
    (value : QVariant) : Option Settings :=
  ((s.beginGroup group).setValue cmp key value).endGroup

/-- The value of a key as read under a group: beginGroup(group); value(key). -/
def Settings.valueIn (s : Settings) (group key : String) : QVariant :=
  (s.beginGroup group).value key

/-- A defaults tree with the single entry k = 5. -/
def oneKeyDefaults : QVariantMap :=
  QVariantMap.cons "k" (QVariant.num 5) QVariantMap.nil

/-- A defaults tree whose entry a is the scalar 1. -/
def scalarDefaults : QVariantMap :=
  QVariantMap.cons "a" (QVariant.num 1) QVariantMap.nil

/-- A defaults tree whose entry a is a mapping with the single entry b = 1. -/
def nestedDefaults : QVariantMap :=
  QVariantMap.cons "a"
    (QVariant.map (QVariantMap.cons "b" (QVariant.num 1) QVariantMap.nil)) QVariantMap.nil

/-- A defaults tree with one document, window, whose entry a is the scalar 1. -/
def documentDefaults : QVariantMap :=
  QVariantMap.cons "window"
    (QVariant.map (QVariantMap.cons "a" (QVariant.num 1) QVariantMap.nil)) QVariantMap.nil

/-! ## Lexer detection (Settings.cpp) -/

/-- QString::toLower (ASCII letters). -/
def toLower (s : String) : String :=
  String.mk (s.data.map Char.toLower)

/-- QFileInfo::fileName: the name of the file, the path excluded. -/
def QFileInfo.fileName (filename : String) : String :=
  String.mk ((splitChars '/' filename.data).getLastD [])

/-- QFileInfo::suffix: the characters of the file name after its last dot,
empty when it has none. -/
def QFileInfo.suffix (filename : String) : String :=
  match splitChars '.' (QFileInfo.fileName filename).data with
  | [] => ""
  | [_] => ""
  | parts => String.mk (parts.getLastD [])

/-- The inner loop of the pattern phase over the patterns of one entry;
exactMatch pattern name stands for QRegExp(pattern, CS,
QRegExp::Wildcard).exactMatch(name). -/
def matchesPattern (exactMatch : String → String → Bool) (name : String) :
    List String → Bool
  | [] => false
  | pattern :: rest =>
    if exactMatch pattern name then true else matchesPattern exactMatch name rest

/-- The inner loop of the extension phase over the extensions of one entry. -/
def matchesExtension (suffix : String) : List String → Bool
  | [] => false
  | ext :: rest => if suffix = ext then true else matchesExtension suffix rest

/-- The first loop of lexer over lexers.keys(): the key it returns, if any. -/
def lexerByPattern (exactMatch : String → String → Bool) (lexers : QVariantMap)
    (name : String) : List String → Option String
  | [] => none
  | key :: rest =>
    let map := (lexers.value key).toMap
    if map.contains "patterns"
        && matchesPattern exactMatch name (split ',' (map.value "patterns").toString) then
      some key
    else lexerByPattern exactMatch lexers name rest

/-- The second loop of lexer over lexers.keys(): the key it returns, if any. -/
def lexerByExtension (lexers : QVariantMap) (suffix : String) : List String → Option String
  | [] => none
  | key :: rest =>
    let map := (lexers.value key).toMap
    if map.contains "extensions"
        && matchesExtension suffix (split ',' (map.value "extensions").toString) then
      some key
    else lexerByExtension lexers suffix rest

/-- The lexers document of the defaults: mDefaults.value("lexers").toMap(). -/
def Settings.lexers (s : Settings) : QVariantMap :=
  (s.mDefaults.value "lexers").toMap

/-- Settings::lexer. -/
def Settings.lexer (exactMatch : String → String → Bool) (s : Settings)
    (filename : String) : String :=
  if filename.isEmpty then "null"
  else
    let name := QFileInfo.fileName filename
    let suffix := toLower (QFileInfo.suffix filename)
    let lexers := s.lexers
    match lexerByPattern exactMatch lexers name lexers.keys with
    | some key => key
    | none =>
      match lexerByExtension lexers suffix lexers.keys with
      | some key => key
      | none => "null"

/-- An entry declares patterns and one of them matches the file name. -/
def PatternMatch (exactMatch : String → String → Bool) (lexers : QVariantMap)
    (name key : String) : Prop :=
  (lexers.value key).toMap.contains "patterns" = true
  ∧ ∃ pattern ∈ split ',' ((lexers.value key).toMap.value "patterns").toString,
      exactMatch pattern name = true

/-- An entry declares extensions and the suffix is one of them. -/
def ExtensionMatch (lexers : QVariantMap) (suffix key : String) : Prop :=
  (lexers.value key).toMap.contains "extensions" = true
  ∧ suffix ∈ split ',' ((lexers.value key).toMap.value "extensions").toString

/-- The key is the first one in the list, in order, with the property. -/
def IsFirst (P : String → Prop) (keys : List String) (key : String) : Prop :=
  ∃ before after, keys = before ++ key :: after ∧ P key ∧ ∀ k ∈ before, ¬ P k

/-- A wildcard matcher for patterns built from literal characters, `?` and
`*` (character sets are not covered), on character lists. -/
def wildcardChars (caseSensitive : Bool) : List Char → List Char → Bool
  | [], name => name.isEmpty
  | p :: ps, name =>
    if p = '*' then
      (List.range (name.length + 1)).any
        (fun i => wildcardChars caseSensitive ps (name.drop i))
    else
      match name with
      | [] => false
      | c :: cs =>
        (p = '?' || (if caseSensitive then p = c else p.toLower = c.toLower))
          && wildcardChars caseSensitive ps cs

/-- A stand-in for QRegExp(pattern, cs, QRegExp::Wildcard).exactMatch(name). -/
def wildcardMatch (caseSensitive : Bool) (pattern name : String) : Bool :=
  wildcardChars caseSensitive pattern.data name.data

/-- A lexers document: entry X declares pattern Makefile, entry Y declares
extension mk. -/
def sampleLexers : QVariantMap :=
  QVariantMap.cons "lexers" (QVariant.map
    (QVariantMap.cons "X" (QVariant.map
        (QVariantMap.cons "name" (QVariant.str "Makefile")
          (QVariantMap.cons "patterns" (QVariant.str "Makefile") QVariantMap.nil)))
      (QVariantMap.cons "Y" (QVariant.map
        (QVariantMap.cons "name" (QVariant.str "Make include")
          (QVariantMap.cons "extensions" (QVariant.str "mk") QVariantMap.nil)))
        QVariantMap.nil))) QVariantMap.nil

/-- A lexers document in which the entry listing extension mk comes first in
key order and a later entry declares the pattern *.mk. -/
def overlappingLexers : QVariantMap :=
  QVariantMap.cons "lexers" (QVariant.map
    (QVariantMap.cons "A" (QVariant.map
        (QVariantMap.cons "extensions" (QVariant.str "mk,mak") QVariantMap.nil))
      (QVariantMap.cons "B" (QVariant.map
        (QVariantMap.cons "patterns" (QVariant.str "GNUmakefile,*.mk") QVariantMap.nil))
        QVariantMap.nil))) QVariantMap.nil

/-! ## Credential helper bridge (GitCredential.cpp) -/

/-- The character differs from ch. -/
def isNot (ch c : Char) : Bool :=
  !decide (c = ch)

/-- QString::indexOf(ch): the position of the first occurrence, -1 when the
character does not occur. -/
def indexOf (s : String) (ch : Char) : Int :=
  if ch ∈ s.data then ((s.data.takeWhile (isNot ch)).length : Int) else -1

/-- QString::mid(position, n): n characters from position on; everything
from position on when n is negative or exceeds what is left; empty when the
position lies beyond the end. -/
def mid (s : String) (position n : Int) : String :=
  let size : Int := s.data.length
  if position > size then ""
  else if position < 0 then
    if n < 0 ∨ n + position ≥ size then s
    else if n + position ≤ 0 then ""
    else String.mk (s.data.take (n + position).toNat)
  else
    let length : Int := if n < 0 ∨ n > size - position then size - position else n
    String.mk ((s.data.drop position.toNat).take length.toNat)

/-- The function host(url); urlHost url stands for QUrl(url).host(). -/
def host (urlHost : String → String) (url : String) : String :=
  let host := urlHost url
  if !host.isEmpty then host
  else
    let endPos := indexOf url ':'
    let beginPos := indexOf url '@' + 1
    mid url beginPos (endPos - beginPos)

/-- The function protocol(url); urlScheme url stands for QUrl(url).scheme(). -/
def protocol (urlScheme : String → String) (url : String) : String :=
  let scheme := urlScheme url
  if !scheme.isEmpty then scheme else "ssh"

/-- The host in the words of the specification: the text strictly between the
first `@` and the first `:` that follows it (up to the end when none follows). -/
def specHostBetween (url : String) : String :=
  String.mk (((url.data.dropWhile (isNot '@')).drop 1).takeWhile (isNot ':'))

namespace QUrl

/-- The scheme of a URL and the text after its colon, on character lists: the
text before the first colon is a scheme when it starts with a letter and
consists of letters, digits, `+`, `-` and `.`. -/
def splitScheme (url : List Char) : List Char × List Char :=
  let candidate := url.takeWhile (isNot ':')
  if ':' ∈ url ∧ (candidate.head?.map Char.isAlpha).getD false = true
      ∧ candidate.all (fun c => c.isAlphanum || c = '+' || c = '-' || c = '.') = true then
    (candidate.map Char.toLower, url.drop (candidate.length + 1))
  else ([], url)

/-- A stand-in for QUrl(url).scheme(). -/
def scheme (url : String) : String :=
  String.mk (splitScheme url.data).1

/-- A stand-in for QUrl(url).host(): the host of the authority that follows
`//`, user information and port removed; empty when there is no authority. -/
def host (url : String) : String :=
  match (splitScheme url.data).2 with
  | '/' :: '/' :: rest =>
    let authority := rest.takeWhile (fun c => decide (c ≠ '/' ∧ c ≠ '?' ∧ c ≠ '#'))
    let hostPort := (splitChars '@' authority).getLastD []
    String.mk ((hostPort.takeWhile (isNot ':')).map Char.toLower)
  | _ => ""

end QUrl

namespace GitCredential

/-- The body of the foreach loop of get applied to one line of the helper
output; the pair holds username and password. -/
def parseLine (fields : String × String) (line : String) : String × String :=
  let components := split '=' line
  if components.length ≠ 2 then fields
  else
    let key := components.headD ""
    let value := components.getLastD ""
    if key = "username" then (value, fields.2)
    else if key = "password" then (fields.1, value)
    else fields

/-- GitCredential::get after the request has been written: started is the
result of waitForStarted, output the text read from the helper. Returns the
result of get with the username and password it leaves. -/
def get (started : Bool) (output : String) (username password : String) :
    Bool × String × String :=
  if !started then (false, username, password)
  else
    let fields := (split '\n' output).foldl parseLine (username, password)
    (true, fields.1, fields.2)

/-- A line has no `=` or more than one. -/
def isMalformed (line : String) : Bool :=
  decide (line.data.count '=' ≠ 1)

/-- The helper output with every malformed line deleted. -/
def deleteMalformed (output : String) : String :=
  join "\n" ((split '\n' output).filter (fun line => !isMalformed line))

end GitCredential

/-! ## Facts about splitting -/

theorem splitChars_ne_nil (sep : Char) (l : List Char) : splitChars sep l ≠ [] := by
  cases l with
  | nil => simp [splitChars]
  | cons c cs =>
    unfold splitChars
    split
    · simp
    · split <;> simp

theorem splitChars_append_sep (sep : Char) (a b : List Char) :
    splitChars sep (a ++ sep :: b) = splitChars sep a ++ splitChars sep b := by
  induction a with
  | nil => simp [splitChars]
  | cons c a ih =>
    by_cases hc : c = sep
    · simp [splitChars, hc, ih]
    · have hne := splitChars_ne_nil sep a
      cases hs : splitChars sep a with
      | nil => exact absurd hs hne
      | cons h t => simp [splitChars, hc, ih, hs]

theorem segmentsChars_append_sep (sep : Char) (a b : List Char) :
    segmentsChars sep (a ++ sep :: b) = segmentsChars sep a ++ segmentsChars sep b := by
  simp [segmentsChars, splitChars_append_sep]

theorem splitSkipEmpty_append_sep (a b : String) :
    splitSkipEmpty '/' (a ++ "/" ++ b) = splitSkipEmpty '/' a ++ splitSkipEmpty '/' b := by
  have h : (a ++ "/" ++ b).data = a.data ++ '/' :: b.data := by
    simp [String.data_append]
  simp [splitSkipEmpty, h, segmentsChars_append_sep]

/-! ## Facts about lookup -/

theorem walk_toMap (v : QVariant) (seg : String) (rest : List String) :
    specWalk (QVariant.map v.toMap) (seg :: rest) = specWalk v (seg :: rest) := by
  cases v <;> simp [specWalk, QVariant.toMap, QVariantMap.find?]

theorem lookupLoop_eq_walk (segs : List String) :
    ∀ m : QVariantMap, segs ≠ [] →
      lookupLoop m segs = some ((specWalk (QVariant.map m) segs).getD QVariant.invalid) := by
  induction segs with
  | nil => intro m h; exact absurd rfl h
  | cons first list ih =>
    intro m _
    cases hf : m.find? first with
    | none => simp [lookupLoop, specWalk, QVariantMap.contains, hf]
    | some v =>
      cases list with
      | nil => simp [lookupLoop, specWalk, QVariantMap.contains, QVariantMap.value, hf]
      | cons seg rest =>
        have h := ih v.toMap (by simp)
        rw [walk_toMap] at h
        have hw : specWalk (QVariant.map m) (first :: seg :: rest) = specWalk v (seg :: rest) := by
          simp only [specWalk, hf]
        rw [hw, ← h, lookupLoop]
        simp [QVariantMap.contains, QVariantMap.value, hf]

theorem lookupChecked_eq_walk (root : QVariantMap) (key : String) :
    lookupChecked root key
      = some ((specWalk (QVariant.map root) (splitSkipEmpty '/' key)).getD QVariant.invalid) := by
  unfold lookupChecked
  cases hs : splitSkipEmpty '/' key with
  | nil => simp [specWalk]
  | cons seg rest =>
    simp only [List.isEmpty_cons, Bool.false_eq_true, if_false]
    exact lookupLoop_eq_walk (seg :: rest) root (by simp)

theorem lookup_eq_walk (root : QVariantMap) (key : String) :
    lookup root key
      = (specWalk (QVariant.map root) (splitSkipEmpty '/' key)).getD QVariant.invalid := by
  simp [lookup, lookupChecked_eq_walk]

theorem find?_isConfigValue :
    ∀ (m : QVariantMap) (key : String) (v : QVariant),
      m.isConfigValue = true → m.find? key = some v → v.isConfigValue = true
  | .nil, _, _, _, h => by simp [QVariantMap.find?] at h
  | .cons k x rest, key, v, hm, h => by
    simp only [QVariantMap.isConfigValue, Bool.and_eq_true] at hm
    by_cases hk : k = key
    · simp [QVariantMap.find?, hk] at h
      rw [← h]; exact hm.1
    · simp [QVariantMap.find?, hk] at h
      exact find?_isConfigValue rest key v hm.2 h

theorem walk_isConfigValue (segs : List String) :
    ∀ (v x : QVariant), v.isConfigValue = true → specWalk v segs = some x →
      x.isConfigValue = true := by
  induction segs with
  | nil => intro v x hv h; simp [specWalk] at h; rw [← h]; exact hv
  | cons seg rest ih =>
    intro v x hv h
    cases v with
    | map m =>
      cases hf : m.find? seg with
      | none => simp [specWalk, hf] at h
      | some y =>
        simp [specWalk, hf] at h
        have hm : m.isConfigValue = true := by simpa [QVariant.isConfigValue] using hv
        exact ih y x (find?_isConfigValue m seg y hm hf) h
    | invalid => simp [specWalk] at h
    | bool b => simp [specWalk] at h
    | num n => simp [specWalk] at h
    | str t => simp [specWalk] at h
    | list l => simp [specWalk] at h

/-! ## Facts about the store -/

theorem find?_erase_self (store : Store) (a : List String) :
    QSettings.find? (QSettings.erase store a) a = none := by
  induction store with
  | nil => simp [QSettings.erase, QSettings.find?]
  | cons e rest ih =>
    obtain ⟨k, v⟩ := e
    by_cases hk : k = a
    · simpa [QSettings.erase, hk] using ih
    · simp [QSettings.erase, hk, QSettings.find?, ih]

theorem find?_erase_ne (store : Store) (a b : List String) (h : a ≠ b) :
    QSettings.find? (QSettings.erase store a) b = QSettings.find? store b := by
  induction store with
  | nil => simp [QSettings.erase, QSettings.find?]
  | cons e rest ih =>
    obtain ⟨k, v⟩ := e
    by_cases hk : k = a
    · have hb : ¬ k = b := by rw [hk]; exact h
      simp [QSettings.erase, hk, QSettings.find?, ih, h]
    · by_cases hb : k = b
      · subst hb
        simp [QSettings.erase, hk, QSettings.find?]
      · simp [QSettings.erase, hk, QSettings.find?, hb, ih]

/-! ## Settings: default collapse, round trip, notifications -/

/-- C1, default collapse: in every state (any defaults tree, current group and
override store), for every key and under every variant comparison, after
setValue(key, defaultValue(key)) the call value(key) returns defaultValue(key),
and the override store does not contain key under the current group. -/
theorem default_collapse (cmp : Comparison) (s : Settings) (key : String) :
    (s.setValue cmp key (s.defaultValue key)).value key = s.defaultValue key
    ∧ QSettings.contains (s.setValue cmp key (s.defaultValue key)).store
        (s.setValue cmp key (s.defaultValue key)).group key = false := by
  by_cases hc : QSettings.contains s.store s.group key = true
  · rw [Settings.setValue, if_pos (cmp.refl _), if_pos hc]
    simp [Settings.value, Settings.defaultValue, Settings.group, QSettings.value,
      QSettings.contains, QSettings.remove, find?_erase_self]
  · rw [Settings.setValue, if_pos (cmp.refl _), if_neg hc]
    have hn : QSettings.find? s.store (QSettings.actualKey s.group key) = none := by
      simpa [QSettings.contains] using hc
    simp [Settings.value, QSettings.value, QSettings.contains, hn]

theorem setValue_null_absent (cmp : Comparison) (s : Settings) (key : String)
    (hf : QSettings.find? s.store (QSettings.actualKey s.group key) = none) :
    s.setValue cmp key QVariant.invalid = s := by
  have hc : ¬ QSettings.contains s.store s.group key = true := by
    simp [QSettings.contains, hf]
  have hv : QSettings.value s.store s.group key QVariant.invalid = QVariant.invalid := by
    simp [QSettings.value, hf]
  cases hd : cmp.eq QVariant.invalid (s.defaultValue key) with
  | true => rw [Settings.setValue, hd, if_pos rfl, if_neg hc]
  | false =>
    rw [Settings.setValue, hd, hv, cmp.refl]
    simp

theorem null_ne_valid (cmp : Comparison) (v : QVariant) (h : v ≠ QVariant.invalid) :
    cmp.eq QVariant.invalid v = false ∧ cmp.eq v QVariant.invalid = false := by
  constructor
  · cases hc : cmp.eq QVariant.invalid v with
    | false => rfl
    | true => exact absurd (cmp.null_left v hc) h
  · cases hc : cmp.eq v QVariant.invalid with
    | false => rfl
    | true => exact absurd (cmp.null_right v hc) h

/-- C2, as stated, fails: with default 5 for key k and no override stored,
the null variant differs from the default, yet after setValue(k, null) the call
value(k) still returns 5; this is so under the comparison without conversions
and under every other variant comparison. -/
theorem override_round_trip_null_counterexample :
    Comparison.exact.eq QVariant.invalid ((Settings.create oneKeyDefaults []).defaultValue "k")
      = false
    ∧ ((Settings.create oneKeyDefaults []).setValue Comparison.exact "k" QVariant.invalid).value
        "k" = QVariant.num 5
    ∧ (∀ cmp : Comparison,
        cmp.eq QVariant.invalid ((Settings.create oneKeyDefaults []).defaultValue "k") = false
        ∧ ((Settings.create oneKeyDefaults []).setValue cmp "k" QVariant.invalid).value "k"
            = QVariant.num 5
        ∧ cmp.eq QVariant.invalid
            (((Settings.create oneKeyDefaults []).setValue cmp "k" QVariant.invalid).value "k")
            = false) := by
  refine ⟨by decide, by decide, ?_⟩
  intro cmp
  have hd : (Settings.create oneKeyDefaults []).defaultValue "k" = QVariant.num 5 := by decide
  have hs : (Settings.create oneKeyDefaults []).setValue cmp "k" QVariant.invalid
      = Settings.create oneKeyDefaults [] :=
    setValue_null_absent cmp _ "k" (by decide)
  have hv : (Settings.create oneKeyDefaults []).value "k" = QVariant.num 5 := by decide
  rw [hd, hs, hv]
  exact ⟨(null_ne_valid cmp _ (by decide)).1, rfl, (null_ne_valid cmp _ (by decide)).1⟩

/-- C2, amended, override round trip: in every state, under every variant
comparison, for every key and every value v with v != defaultValue(key), where
v is not the null variant or an override is already stored for the key, after
setValue(key, v) an override is stored for the key and v == value(key): the
call returns v itself, unless v already compared equal to the override stored
before, in which case that override is kept and returned. -/
theorem override_round_trip (cmp : Comparison) (s : Settings) (key : String) (v : QVariant)
    (hv : cmp.eq v (s.defaultValue key) = false)
    (hn : v ≠ QVariant.invalid ∨ QSettings.contains s.store s.group key = true) :
    cmp.eq v ((s.setValue cmp key v).value key) = true
    ∧ QSettings.contains (s.setValue cmp key v).store (s.setValue cmp key v).group key = true
    ∧ (cmp.eq v (QSettings.value s.store s.group key QVariant.invalid) = false →
        (s.setValue cmp key v).value key = v)
    ∧ (cmp.eq v (QSettings.value s.store s.group key QVariant.invalid) = true →
        (s.setValue cmp key v).value key = s.value key) := by
  have hv' : ¬ (cmp.eq v (s.defaultValue key) = true) := by simp [hv]
  cases hw : cmp.eq v (QSettings.value s.store s.group key QVariant.invalid) with
  | true =>
    have hs : s.setValue cmp key v = s := by
      rw [Settings.setValue, if_neg hv', hw]
      simp
    rw [hs]
    cases hf : QSettings.find? s.store (QSettings.actualKey s.group key) with
    | none =>
      have hinv : v = QVariant.invalid := by
        apply cmp.null_right
        simpa [QSettings.value, hf] using hw
      cases hn with
      | inl h => exact absurd hinv h
      | inr h => simp [QSettings.contains, hf] at h
    | some w =>
      have hvw : cmp.eq v w = true := by simpa [QSettings.value, hf] using hw
      refine ⟨?_, ?_, ?_, ?_⟩
      · simpa [Settings.value, QSettings.value, hf] using hvw
      · simp [QSettings.contains, hf]
      · intro h; exact absurd h (by simp)
      · intro _; rfl
  | false =>
    have hs : s.setValue cmp key v
        = Settings.mk s.mDefaults s.mGroup s.mCurrentMap
            (QSettings.setValue s.store s.group key v) (s.emitted + 1) := by
      rw [Settings.setValue, if_neg hv', hw]
      simp
    rw [hs]
    have hval : (Settings.mk s.mDefaults s.mGroup s.mCurrentMap
        (QSettings.setValue s.store s.group key v) (s.emitted + 1)).value key = v := by
      simp [Settings.value, Settings.group, QSettings.value, QSettings.setValue,
        QSettings.find?]
    refine ⟨?_, ?_, ?_, ?_⟩
    · rw [hval]; exact cmp.refl v
    · simp [Settings.group, QSettings.contains, QSettings.setValue, QSettings.find?]
    · intro _; exact hval
    · intro h; exact absurd h (by simp)

/-- Witness of C2 amended: overriding the default 5 of key k by 7. -/
theorem override_round_trip_witness :
    ((Settings.create oneKeyDefaults []).setValue Comparison.exact "k" (QVariant.num 7)).value
        "k" = QVariant.num 7 :=
  (override_round_trip Comparison.exact (Settings.create oneKeyDefaults []) "k"
    (QVariant.num 7) (by decide) (Or.inl (by decide))).2.2.1 (by decide)

/-- A write that the comparison equates with the default is dropped: under every
comparison that converts the text "5" to the number 5, setValue(k, "5") over the
default 5 and an empty store changes nothing, and value(k) returns the number. -/
theorem converting_write_is_dropped (cmp : Comparison)
    (h : cmp.eq (QVariant.str "5") (QVariant.num 5) = true) :
    (Settings.create oneKeyDefaults []).setValue cmp "k" (QVariant.str "5")
      = Settings.create oneKeyDefaults []
    ∧ ((Settings.create oneKeyDefaults []).setValue cmp "k" (QVariant.str "5")).value "k"
      = QVariant.num 5 := by
  have hd : (Settings.create oneKeyDefaults []).defaultValue "k" = QVariant.num 5 := by decide
  have hc : ¬ QSettings.contains (Settings.create oneKeyDefaults []).store
      (Settings.create oneKeyDefaults []).group "k" = true := by decide
  have hs : (Settings.create oneKeyDefaults []).setValue cmp "k" (QVariant.str "5")
      = Settings.create oneKeyDefaults [] := by
    rw [Settings.setValue, hd, if_pos h, if_neg hc]
  rw [hs]
  exact ⟨rfl, by decide⟩

/-- C3, as stated, fails twice. When the store already holds an override
equal to the default (5 stored for key k whose default is 5), writing the
currently visible value removes that entry and emits one notification. And with
no override stored, writing the null variant, which differs from the visible
value 5, emits none. Both hold under the comparison without conversions and
under every other variant comparison. -/
theorem notification_minimality_counterexample :
    (Settings.create oneKeyDefaults [(["k"], QVariant.num 5)]).value "k" = QVariant.num 5
    ∧ (Settings.create oneKeyDefaults [(["k"], QVariant.num 5)]).notifications
        Comparison.exact "k" (QVariant.num 5) = 1
    ∧ Comparison.exact.eq QVariant.invalid ((Settings.create oneKeyDefaults []).value "k")
        = false
    ∧ (Settings.create oneKeyDefaults []).notifications Comparison.exact "k" QVariant.invalid
        = 0
    ∧ (∀ cmp : Comparison,
        (Settings.create oneKeyDefaults [(["k"], QVariant.num 5)]).notifications cmp "k"
            ((Settings.create oneKeyDefaults [(["k"], QVariant.num 5)]).value "k") = 1
        ∧ cmp.eq QVariant.invalid ((Settings.create oneKeyDefaults []).value "k") = false
        ∧ (Settings.create oneKeyDefaults []).notifications cmp "k" QVariant.invalid = 0) := by
  refine ⟨by decide, by decide, by decide, by decide, ?_⟩
  intro cmp
  refine ⟨?_, ?_, ?_⟩
  · have hv : (Settings.create oneKeyDefaults [(["k"], QVariant.num 5)]).value "k"
        = QVariant.num 5 := by decide
    have hd : (Settings.create oneKeyDefaults [(["k"], QVariant.num 5)]).defaultValue "k"
        = QVariant.num 5 := by decide
    have hc : QSettings.contains (Settings.create oneKeyDefaults [(["k"], QVariant.num 5)]).store
        (Settings.create oneKeyDefaults [(["k"], QVariant.num 5)]).group "k" = true := by
      decide
    rw [hv, Settings.notifications, Settings.setValue, hd, if_pos (cmp.refl _), if_pos hc]
    simp
  · have hv : (Settings.create oneKeyDefaults []).value "k" = QVariant.num 5 := by decide
    rw [hv]
    exact (null_ne_valid cmp _ (by decide)).1
  · rw [Settings.notifications, setValue_null_absent cmp _ "k" (by decide)]
    simp

/-- C3, amended, notification minimality: in every state and under every
variant comparison a single setValue call emits at most one notification;
setValue(key, value(key)) emits none provided the store does not hold an
override that compares equal to the default of the key; and setValue(key, v)
with v != value(key) emits exactly one provided v is not the null variant or an
override is stored for the key. -/
theorem notification_minimality (cmp : Comparison) (s : Settings) (key : String)
    (v : QVariant) :
    s.notifications cmp key v ≤ 1
    ∧ ((∀ w, QSettings.find? s.store (QSettings.actualKey s.group key) = some w →
          cmp.eq w (s.defaultValue key) = false) →
        s.notifications cmp key (s.value key) = 0)
    ∧ (cmp.eq v (s.value key) = false →
        (v ≠ QVariant.invalid ∨ QSettings.contains s.store s.group key = true) →
        s.notifications cmp key v = 1) := by
  refine ⟨?_, ?_, ?_⟩
  · unfold Settings.notifications Settings.setValue
    split
    · split <;> simp
    · split <;> simp
  · intro hsparse
    unfold Settings.notifications
    cases hf : QSettings.find? s.store (QSettings.actualKey s.group key) with
    | none =>
      have hval : s.value key = s.defaultValue key := by
        simp [Settings.value, QSettings.value, hf]
      have hc : ¬ QSettings.contains s.store s.group key = true := by
        simp [QSettings.contains, hf]
      rw [hval, Settings.setValue, if_pos (cmp.refl _), if_neg hc]
      simp
    | some w =>
      have hval : s.value key = w := by simp [Settings.value, QSettings.value, hf]
      have hne : ¬ (cmp.eq w (s.defaultValue key) = true) := by
        rw [hsparse w hf]; simp
      have hsame : QSettings.value s.store s.group key QVariant.invalid = w := by
        simp [QSettings.value, hf]
      rw [hval, Settings.setValue, if_neg hne, hsame, cmp.refl]
      simp
  · intro hv hn
    unfold Settings.notifications
    cases hd : cmp.eq v (s.defaultValue key) with
    | true =>
      have hc : QSettings.contains s.store s.group key = true := by
        cases hf : QSettings.find? s.store (QSettings.actualKey s.group key) with
        | none =>
          have hval : s.value key = s.defaultValue key := by
            simp [Settings.value, QSettings.value, hf]
          rw [hval, hd] at hv
          exact absurd hv (by simp)
        | some w => simp [QSettings.contains, hf]
      rw [Settings.setValue, hd, if_pos rfl, if_pos hc]
      simp
    | false =>
      have hw : cmp.eq v (QSettings.value s.store s.group key QVariant.invalid) = false := by
        cases hf : QSettings.find? s.store (QSettings.actualKey s.group key) with
        | none =>
          cases hn with
          | inl h =>
            have : QSettings.value s.store s.group key QVariant.invalid = QVariant.invalid := by
              simp [QSettings.value, hf]
            rw [this]
            exact (null_ne_valid cmp v h).2
          | inr h => simp [QSettings.contains, hf] at h
        | some w =>
          have hval : s.value key = w := by simp [Settings.value, QSettings.value, hf]
          rw [hval] at hv
          simpa [QSettings.value, hf] using hv
      rw [Settings.setValue, hd, hw]
      simp

/-- Witness of C3 amended: with default 5 for key k and an empty store,
rewriting the visible value emits nothing and writing 7 emits once. -/
theorem notification_minimality_witness :
    (Settings.create oneKeyDefaults []).notifications Comparison.exact "k"
        ((Settings.create oneKeyDefaults []).value "k") = 0
    ∧ (Settings.create oneKeyDefaults []).notifications Comparison.exact "k"
        (QVariant.num 7) = 1 :=
  ⟨(notification_minimality Comparison.exact (Settings.create oneKeyDefaults []) "k"
      (QVariant.num 7)).2.1 (by decide),
   (notification_minimality Comparison.exact (Settings.create oneKeyDefaults []) "k"
      (QVariant.num 7)).2.2 (by decide) (Or.inl (by decide))⟩

/-- Rewriting the visible value over an override that the comparison equates
with the default removes the override: under every comparison that converts the
text "5" to the number 5, with default 5 and "5" stored, setValue(k, value(k))
emits one notification. -/
theorem converting_rewrite_removes (cmp : Comparison)
    (h : cmp.eq (QVariant.str "5") (QVariant.num 5) = true) :
    (Settings.create oneKeyDefaults [(["k"], QVariant.str "5")]).notifications cmp "k"
      ((Settings.create oneKeyDefaults [(["k"], QVariant.str "5")]).value "k") = 1 := by
  have hv : (Settings.create oneKeyDefaults [(["k"], QVariant.str "5")]).value "k"
      = QVariant.str "5" := by decide
  have hd : (Settings.create oneKeyDefaults [(["k"], QVariant.str "5")]).defaultValue "k"
      = QVariant.num 5 := by decide
  have hc : QSettings.contains (Settings.create oneKeyDefaults [(["k"], QVariant.str "5")]).store
      (Settings.create oneKeyDefaults [(["k"], QVariant.str "5")]).group "k" = true := by
    decide
  rw [hv, Settings.notifications, Settings.setValue, hd, if_pos h, if_pos hc]
  simp

/-- The two conversions above, evaluated under the sample comparison that
equates a number with its decimal text: with default 5 and an empty store,
setValue(k, "5") emits nothing and value(k) stays the number 5; with "5" stored,
rewriting the visible value emits one notification and removes the override. -/
theorem converting_examples :
    Comparison.decimal.eq (QVariant.str "5") (QVariant.num 5) = true
    ∧ (Settings.create oneKeyDefaults []).notifications Comparison.decimal "k"
        (QVariant.str "5") = 0
    ∧ ((Settings.create oneKeyDefaults []).setValue Comparison.decimal "k"
        (QVariant.str "5")).value "k" = QVariant.num 5
    ∧ (Settings.create oneKeyDefaults [(["k"], QVariant.str "5")]).notifications
        Comparison.decimal "k"
        ((Settings.create oneKeyDefaults [(["k"], QVariant.str "5")]).value "k") = 1
    ∧ ((Settings.create oneKeyDefaults [(["k"], QVariant.str "5")]).setValue
        Comparison.decimal "k"
        ((Settings.create oneKeyDefaults [(["k"], QVariant.str "5")]).value "k")).store = [] := by
  decide

/-! ## The lookup contract -/

/-- C9, default lookup contract: for every mapping root and path, lookup
never reads the head of an empty segment list and returns the result of
walking the non-empty segments of the path through the mapping chain, null
when the walk fails; it returns null exactly when the walk fails (a segment
is missing, or a value is not a mapping while segments remain) or ends on a
stored null, which a tree of configuration values never holds;
lookup(root, "a//b/") = lookup(root, "a/b"); and defaultValue(key) is lookup
on the cached root of the current group. -/
theorem lookup_contract (root : QVariantMap) (path : String) :
    lookupChecked root path = some (lookup root path)
    ∧ lookup root path
        = (specWalk (QVariant.map root) (splitSkipEmpty '/' path)).getD QVariant.invalid
    ∧ (lookup root path = QVariant.invalid
        ↔ (specWalk (QVariant.map root) (splitSkipEmpty '/' path) = none
            ∨ specWalk (QVariant.map root) (splitSkipEmpty '/' path) = some QVariant.invalid))
    ∧ (root.isConfigValue = true →
        (lookup root path = QVariant.invalid
          ↔ specWalk (QVariant.map root) (splitSkipEmpty '/' path) = none))
    ∧ lookup root "a//b/" = lookup root "a/b"
    ∧ (∀ (s : Settings) (key : String), s.defaultValue key = lookup s.mCurrentMap key) := by
  refine ⟨?_, lookup_eq_walk root path, ?_, ?_, ?_, fun _ _ => rfl⟩
  · rw [lookup_eq_walk, lookupChecked_eq_walk]
  · rw [lookup_eq_walk]
    cases hw : specWalk (QVariant.map root) (splitSkipEmpty '/' path) with
    | none => simp
    | some x => simp
  · intro hroot
    rw [lookup_eq_walk]
    cases hw : specWalk (QVariant.map root) (splitSkipEmpty '/' path) with
    | none => simp
    | some x =>
      have hx := walk_isConfigValue _ (QVariant.map root) x
        (by simpa [QVariant.isConfigValue] using hroot) hw
      have hne : x ≠ QVariant.invalid := by
        intro h
        rw [h] at hx
        simp [QVariant.isConfigValue] at hx
      simpa using hne
  · rw [lookup_eq_walk, lookup_eq_walk]
    have h1 : splitSkipEmpty '/' "a//b/" = ["a", "b"] := by decide
    have h2 : splitSkipEmpty '/' "a/b" = ["a", "b"] := by decide
    rw [h1, h2]

/-- Witness of C9: in the tree whose entry a maps b to 1, the path a/c
resolves to null exactly because the walk fails at the missing segment c. -/
theorem lookup_contract_witness :
    (lookup nestedDefaults "a/c" = QVariant.invalid
      ↔ specWalk (QVariant.map nestedDefaults) (splitSkipEmpty '/' "a/c") = none) :=
  (lookup_contract nestedDefaults "a/c").2.2.2.1 (by decide)

/-! ## Groups, coherence and sparsity -/

theorem splitSkipEmpty_join_concat (l : List String) (g : String) :
    splitSkipEmpty '/' (join "/" (l ++ [g]))
      = splitSkipEmpty '/' (join "/" l) ++ splitSkipEmpty '/' g := by
  induction l with
  | nil =>
    have h : splitSkipEmpty '/' "" = [] := by decide
    simp [join, h]
  | cons a rest ih =>
    cases rest with
    | nil => simp [join, splitSkipEmpty_append_sep]
    | cons b r =>
      have h1 : join "/" (a :: b :: r ++ [g]) = a ++ "/" ++ join "/" (b :: r ++ [g]) := by
        simp [join]
      have h2 : join "/" (a :: b :: r) = a ++ "/" ++ join "/" (b :: r) := by
        simp [join]
      rw [h1, h2, splitSkipEmpty_append_sep, splitSkipEmpty_append_sep, ih, List.append_assoc]

theorem walk_append (a b : List String) :
    ∀ v : QVariant, specWalk v (a ++ b) = (specWalk v a).bind (fun x => specWalk x b) := by
  induction a with
  | nil => intro v; simp [specWalk]
  | cons seg rest ih =>
    intro v
    cases v with
    | map m =>
      cases hf : m.find? seg with
      | none => simp [specWalk, hf]
      | some y => simp [specWalk, hf, ih]
    | invalid => simp [specWalk]
    | bool x => simp [specWalk]
    | num n => simp [specWalk]
    | str t => simp [specWalk]
    | list l => simp [specWalk]

theorem lookup_under_group (defaults : QVariantMap) (group key : String)
    (hk : splitSkipEmpty '/' key ≠ []) :
    lookup (lookup defaults group).toMap key
      = (specWalk (QVariant.map defaults)
          (splitSkipEmpty '/' group ++ splitSkipEmpty '/' key)).getD QVariant.invalid := by
  rw [lookup_eq_walk, lookup_eq_walk, walk_append]
  cases hs : splitSkipEmpty '/' key with
  | nil => exact absurd hs hk
  | cons seg rest =>
    cases hw : specWalk (QVariant.map defaults) (splitSkipEmpty '/' group) with
    | none => simp [QVariant.toMap, specWalk, QVariantMap.find?]
    | some x => simp [walk_toMap]

theorem coherent_create (defaults : QVariantMap) (store : Store) :
    (Settings.create defaults store).Coherent := by
  have h : splitSkipEmpty '/' "" = [] := by decide
  simp [Settings.Coherent, Settings.create, Settings.group, join, lookup_eq_walk, h, specWalk,
    QVariant.toMap]

theorem sparse_erase (defaults : QVariantMap) (store : Store) (a : List String)
    (hs : Sparse defaults store) : Sparse defaults (QSettings.erase store a) := by
  intro fullKey
  by_cases h : a = QSettings.actualKey "" fullKey
  · rw [← h, find?_erase_self]
    simp
  · rw [find?_erase_ne _ _ _ h]
    exact hs fullKey

theorem step_coherent (cmp : Comparison) (s s' : Settings) (op : Op) (hc : s.Coherent)
    (hstep : s.step cmp op = some s') : s'.Coherent ∧ s'.mDefaults = s.mDefaults := by
  cases op with
  | beginGroup name =>
    simp only [Settings.step, Option.some.injEq] at hstep
    subst hstep
    exact ⟨rfl, rfl⟩
  | endGroup =>
    simp only [Settings.step, Settings.endGroup] at hstep
    split at hstep
    · exact absurd hstep (by simp)
    · simp only [Option.some.injEq] at hstep
      subst hstep
      exact ⟨rfl, rfl⟩
  | setValue key value =>
    simp only [Settings.step, Option.some.injEq] at hstep
    subst hstep
    unfold Settings.setValue
    split
    · split
      · exact ⟨hc, rfl⟩
      · exact ⟨hc, rfl⟩
    · split
      · exact ⟨hc, rfl⟩
      · exact ⟨hc, rfl⟩

theorem run_coherent (cmp : Comparison) (ops : List Op) :
    ∀ (s s' : Settings), s.Coherent → s.run cmp ops = some s' → s'.Coherent := by
  induction ops with
  | nil =>
    intro s s' hc hr
    simp only [Settings.run, Option.some.injEq] at hr
    subst hr
    exact hc
  | cons op rest ih =>
    intro s s' hc hr
    simp only [Settings.run] at hr
    cases hst : s.step cmp op with
    | none => simp [hst] at hr
    | some s1 =>
      simp only [hst] at hr
      exact ih s1 s' (step_coherent cmp s s1 op hc hst).1 hr

theorem step_sparse (cmp : Comparison) (s s' : Settings) (op : Op) (hc : s.Coherent)
    (hs : Sparse s.mDefaults s.store) (hk : op.hasProperKey = true)
    (hstep : s.step cmp op = some s') : Sparse s'.mDefaults s'.store := by
  cases op with
  | beginGroup name =>
    simp only [Settings.step, Option.some.injEq] at hstep
    subst hstep
    exact hs
  | endGroup =>
    simp only [Settings.step, Settings.endGroup] at hstep
    split at hstep
    · exact absurd hstep (by simp)
    · simp only [Option.some.injEq] at hstep
      subst hstep
      exact hs
  | setValue key value =>
    simp only [Settings.step, Option.some.injEq] at hstep
    subst hstep
    have hkey : splitSkipEmpty '/' key ≠ [] := by
      simpa [Op.hasProperKey] using hk
    unfold Settings.setValue
    split
    · split
      · exact sparse_erase _ _ _ hs
      · exact hs
    · rename_i hne
      split
      · intro fullKey
        have he : splitSkipEmpty '/' "" = [] := by decide
        by_cases h : QSettings.actualKey s.group key = QSettings.actualKey "" fullKey
        · simp only [QSettings.setValue, QSettings.find?, h, if_true]
          intro hv
          apply hne
          have hd : s.defaultValue key = lookup s.mDefaults fullKey := by
            unfold Settings.defaultValue
            rw [hc, lookup_under_group _ _ _ hkey, lookup_eq_walk]
            have h2 : splitSkipEmpty '/' s.group ++ splitSkipEmpty '/' key
                = splitSkipEmpty '/' fullKey := by
              simpa [QSettings.actualKey, he] using h
            rw [h2]
          rw [hd, Option.some.inj hv]
          exact cmp.refl _
        · simp only [QSettings.setValue, QSettings.find?, h, if_false]
          rw [find?_erase_ne _ _ _ h]
          exact hs fullKey
      · exact hs

/-- C4, as stated, fails for a key without any path segment. With
defaults a = 1 and an empty (hence sparse) store, beginGroup(a) followed by
setValue("/", 1) compares 1 with the cached group map, not with the default of
the full key, and stores 1 at the address of a, whose resolved default is 1;
this is so under every variant comparison that does not equate the number 1
with an empty mapping. The same happens one level down, for the scalar entry a
of a document window under the group window/a. -/
theorem sparsity_counterexample :
    Sparse scalarDefaults []
    ∧ ((Settings.create scalarDefaults []).beginGroup "a").defaultValue "/"
        = QVariant.map QVariantMap.nil
    ∧ lookup scalarDefaults "a//" = QVariant.num 1
    ∧ (((Settings.create scalarDefaults []).beginGroup "a").setValue Comparison.exact "/"
          (QVariant.num 1)).store = [(["a"], QVariant.num 1)]
    ∧ ¬ Sparse scalarDefaults
        (((Settings.create scalarDefaults []).beginGroup "a").setValue Comparison.exact "/"
          (QVariant.num 1)).store
    ∧ (∀ cmp : Comparison,
        cmp.eq (QVariant.num 1) (QVariant.map QVariantMap.nil) = false →
        ¬ Sparse scalarDefaults
          (((Settings.create scalarDefaults []).beginGroup "a").setValue cmp "/"
            (QVariant.num 1)).store)
    ∧ Sparse documentDefaults []
    ∧ lookup documentDefaults "window/a//" = QVariant.num 1
    ∧ (((Settings.create documentDefaults []).beginGroup "window/a").setValue
          Comparison.exact "/" (QVariant.num 1)).store = [(["window", "a"], QVariant.num 1)]
    ∧ ¬ Sparse documentDefaults
        (((Settings.create documentDefaults []).beginGroup "window/a").setValue
          Comparison.exact "/" (QVariant.num 1)).store := by
  refine ⟨?_, by decide, by decide, by decide, ?_, ?_, ?_, by decide, by decide, ?_⟩
  · intro fullKey
    simp [QSettings.find?]
  · intro h
    exact h "a//" (by decide)
  rotate_left
  · intro fullKey
    simp [QSettings.find?]
  · intro h
    exact h "window/a//" (by decide)
  · intro cmp hmap h
    have hd : ((Settings.create scalarDefaults []).beginGroup "a").defaultValue "/"
        = QVariant.map QVariantMap.nil := by decide
    have hv : QSettings.value ((Settings.create scalarDefaults []).beginGroup "a").store
        ((Settings.create scalarDefaults []).beginGroup "a").group "/" QVariant.invalid
        = QVariant.invalid := by decide
    have hnull := (null_ne_valid cmp (QVariant.num 1) (by decide)).2
    have hs : (((Settings.create scalarDefaults []).beginGroup "a").setValue cmp "/"
        (QVariant.num 1)).store = [(["a"], QVariant.num 1)] := by
      rw [Settings.setValue, hd, hmap, hv, hnull]
      decide
    rw [hs] at h
    exact h "a//" (by decide)

/-- C4, amended, sparsity invariant: under every variant comparison, in every
state reached from a constructed Settings object by beginGroup, endGroup and
setValue steps, if no fully-qualified key of the override store holds a value
equal to lookup(defaults, fullKey), then the same holds after one more
beginGroup, endGroup or setValue(key, v) step, provided the key of a setValue
step has at least one non-empty path segment; for such a key, setValue under
group g is judged against the default of the full key g/key. -/
theorem sparsity_invariant (cmp : Comparison) (defaults : QVariantMap) (store : Store)
    (ops : List Op) (s s' : Settings) (op : Op)
    (hreach : (Settings.create defaults store).run cmp ops = some s)
    (hs : Sparse s.mDefaults s.store)
    (hk : op.hasProperKey = true)
    (hstep : s.step cmp op = some s') :
    Sparse s'.mDefaults s'.store
    ∧ (∀ key : String, splitSkipEmpty '/' key ≠ [] →
        s.defaultValue key = lookup s.mDefaults (s.group ++ "/" ++ key)) := by
  have hc : s.Coherent :=
    run_coherent cmp ops _ s (coherent_create defaults store) hreach
  refine ⟨step_sparse cmp s s' op hc hs hk hstep, ?_⟩
  intro key hkey
  unfold Settings.defaultValue
  rw [hc, lookup_under_group _ _ _ hkey, lookup_eq_walk, splitSkipEmpty_append_sep]

/-- Witness of C4 amended: with defaults whose entry a maps b to 1 and an
empty store, after entering group a, overriding b by 2 keeps the store
sparse. -/
theorem sparsity_invariant_witness :
    Sparse nestedDefaults [(["a", "b"], QVariant.num 2)] :=
  (sparsity_invariant Comparison.exact nestedDefaults [] [Op.beginGroup "a"]
    ((Settings.create nestedDefaults []).beginGroup "a")
    (Settings.mk nestedDefaults ["a"] (QVariantMap.cons "b" (QVariant.num 1) QVariantMap.nil)
      [(["a", "b"], QVariant.num 2)] 1)
    (Op.setValue "b" (QVariant.num 2))
    (by decide)
    (by intro fullKey; simp [Settings.beginGroup, Settings.create, QSettings.find?])
    (by decide)
    (by decide)).1

/-! ## Scoping isolation -/

theorem setValue_mGroup (cmp : Comparison) (s : Settings) (key : String) (v : QVariant) :
    (s.setValue cmp key v).mGroup = s.mGroup := by
  unfold Settings.setValue
  split <;> split <;> rfl

theorem setValue_mDefaults (cmp : Comparison) (s : Settings) (key : String)
    (v : QVariant) : (s.setValue cmp key v).mDefaults = s.mDefaults := by
  unfold Settings.setValue
  split <;> split <;> rfl

theorem setValue_find?_ne (cmp : Comparison) (s : Settings) (key : String) (v : QVariant)
    (a : List String) (h : QSettings.actualKey s.group key ≠ a) :
    QSettings.find? (s.setValue cmp key v).store a = QSettings.find? s.store a := by
  unfold Settings.setValue
  split
  · split
    · exact find?_erase_ne _ _ _ h
    · rfl
  · split
    · simp only [QSettings.setValue, QSettings.find?, h, if_false]
      exact find?_erase_ne _ _ _ h
    · rfl

theorem setValueIn_frame (cmp : Comparison) (s : Settings) (g1 g2 k : String) (v : QVariant)
    (h : splitSkipEmpty '/' g1 ≠ splitSkipEmpty '/' g2) :
    ∃ s1, s.setValueIn cmp g1 k v = some s1 ∧ s1.mDefaults = s.mDefaults
      ∧ s1.mGroup = s.mGroup
      ∧ QSettings.find? s1.store (QSettings.actualKey (join "/" (s.mGroup ++ [g2])) k)
          = QSettings.find? s.store (QSettings.actualKey (join "/" (s.mGroup ++ [g2])) k) := by
  have hg : ((s.beginGroup g1).setValue cmp k v).mGroup = s.mGroup ++ [g1] := by
    rw [setValue_mGroup]; rfl
  have hd : ((s.beginGroup g1).setValue cmp k v).mDefaults = s.mDefaults := by
    rw [setValue_mDefaults]; rfl
  have hne : ¬ (((s.beginGroup g1).setValue cmp k v).mGroup.isEmpty = true) := by
    rw [hg]; simp
  refine ⟨Settings.mk ((s.beginGroup g1).setValue cmp k v).mDefaults
    ((s.beginGroup g1).setValue cmp k v).mGroup.dropLast
    (lookup ((s.beginGroup g1).setValue cmp k v).mDefaults
      (join "/" ((s.beginGroup g1).setValue cmp k v).mGroup.dropLast)).toMap
    ((s.beginGroup g1).setValue cmp k v).store ((s.beginGroup g1).setValue cmp k v).emitted,
    ?_, ?_, ?_, ?_⟩
  · unfold Settings.setValueIn Settings.endGroup
    rw [if_neg hne]
  · exact hd
  · simp [hg]
  · show QSettings.find? ((s.beginGroup g1).setValue cmp k v).store _ = _
    rw [setValue_find?_ne]
    · rfl
    · show QSettings.actualKey (join "/" (s.mGroup ++ [g1])) k
        ≠ QSettings.actualKey (join "/" (s.mGroup ++ [g2])) k
      unfold QSettings.actualKey
      rw [splitSkipEmpty_join_concat, splitSkipEmpty_join_concat]
      intro heq
      apply h
      exact List.append_cancel_left (List.append_cancel_right heq)

theorem valueIn_eq (s : Settings) (g k : String) :
    s.valueIn g k
      = (QSettings.find? s.store (QSettings.actualKey (join "/" (s.mGroup ++ [g])) k)).getD
          (lookup (lookup s.mDefaults (join "/" (s.mGroup ++ [g]))).toMap k) := rfl

theorem valueIn_congr (s : Settings) (g g' k : String)
    (h : splitSkipEmpty '/' g = splitSkipEmpty '/' g') :
    s.valueIn g k = s.valueIn g' k := by
  have ha : QSettings.actualKey (join "/" (s.mGroup ++ [g])) k
      = QSettings.actualKey (join "/" (s.mGroup ++ [g'])) k := by
    unfold QSettings.actualKey
    rw [splitSkipEmpty_join_concat, splitSkipEmpty_join_concat, h]
  have hl : lookup s.mDefaults (join "/" (s.mGroup ++ [g]))
      = lookup s.mDefaults (join "/" (s.mGroup ++ [g'])) := by
    rw [lookup_eq_walk, lookup_eq_walk, splitSkipEmpty_join_concat,
      splitSkipEmpty_join_concat, h]
  rw [valueIn_eq, valueIn_eq, ha, hl]

/-- C10, scoping isolation: a group is a sequence of path segments, and two
texts with the same segments name the same group (every key reads the same
under both, in every state). Under every variant comparison, for every state,
every two distinct groups g1 and g2, every key k and values v and w, the
sequence beginGroup(g1); setValue(k, v); endGroup() succeeds and leaves
value(k) as read under g2 unchanged, and setting k under g2 to w afterwards
leaves value(k) as read under g1 unchanged; likewise a value set under a group
with at least one segment leaves value(k) at top level unchanged. -/
theorem scoping_isolation (cmp : Comparison) (s : Settings) (g1 g2 k : String)
    (v w : QVariant)
    (h : splitSkipEmpty '/' g1 ≠ splitSkipEmpty '/' g2) :
    (∃ s1 s2, s.setValueIn cmp g1 k v = some s1
      ∧ s1.valueIn g2 k = s.valueIn g2 k
      ∧ s1.setValueIn cmp g2 k w = some s2
      ∧ s2.valueIn g1 k = s1.valueIn g1 k)
    ∧ (∀ (defaults : QVariantMap) (store : Store), splitSkipEmpty '/' g1 ≠ [] →
        ∃ t1, (Settings.create defaults store).setValueIn cmp g1 k v = some t1
          ∧ t1.value k = (Settings.create defaults store).value k)
    ∧ (∀ (t : Settings) (g g' : String), splitSkipEmpty '/' g = splitSkipEmpty '/' g' →
        t.valueIn g k = t.valueIn g' k) := by
  refine ⟨?_, ?_, fun t g g' hg => valueIn_congr t g g' k hg⟩
  · obtain ⟨s1, h1, hd1, hg1, hf1⟩ := setValueIn_frame cmp s g1 g2 k v h
    obtain ⟨s2, h2, hd2, hg2, hf2⟩ := setValueIn_frame cmp s1 g2 g1 k w (Ne.symm h)
    refine ⟨s1, s2, h1, ?_, h2, ?_⟩
    · rw [valueIn_eq, valueIn_eq, hd1, hg1, hf1]
    · rw [valueIn_eq, valueIn_eq, hd2, hg2, hf2]
  · intro defaults store hne
    have he : splitSkipEmpty '/' "" = [] := by decide
    obtain ⟨t1, h1, hd1, hg1, hf1⟩ :=
      setValueIn_frame cmp (Settings.create defaults store) g1 "" k v (by rw [he]; exact hne)
    refine ⟨t1, h1, ?_⟩
    have hcur : t1.mCurrentMap = defaults := by
      unfold Settings.setValueIn Settings.endGroup at h1
      split at h1
      · exact absurd h1 (by simp)
      · simp only [Option.some.injEq] at h1
        rw [← h1]
        have hg : ((Settings.create defaults store).beginGroup g1 |>.setValue cmp k v).mGroup
            = [g1] := by
          rw [setValue_mGroup]; rfl
        have hd : ((Settings.create defaults store).beginGroup g1 |>.setValue cmp k v).mDefaults
            = defaults := by
          rw [setValue_mDefaults]; rfl
        simp only [hg, hd, List.dropLast_single, join]
        simp [lookup_eq_walk, he, specWalk, QVariant.toMap]
    have hjoin : join "/" ((Settings.create defaults store).mGroup ++ [""]) = "" := by
      simp [Settings.create, join]
    rw [hjoin] at hf1
    simp only [Settings.value, Settings.defaultValue, QSettings.value, Settings.group, hg1, hcur]
    simp only [Settings.create, join] at hf1 ⊢
    rw [hf1]

/-- Witness of C10: groups a/b and a/c over an empty store, key x. -/
theorem scoping_isolation_witness :
    ∃ s1 s2, (Settings.create QVariantMap.nil []).setValueIn Comparison.exact "a/b" "x"
        (QVariant.num 1) = some s1
      ∧ s1.valueIn "a/c" "x" = (Settings.create QVariantMap.nil []).valueIn "a/c" "x"
      ∧ s1.setValueIn Comparison.exact "a/c" "x" (QVariant.num 2) = some s2
      ∧ s2.valueIn "a/b" "x" = s1.valueIn "a/b" "x" :=
  (scoping_isolation Comparison.exact (Settings.create QVariantMap.nil []) "a/b" "a/c" "x"
    (QVariant.num 1) (QVariant.num 2) (by decide)).1

/-! ## Lexer precedence -/

theorem matchesPattern_iff (exactMatch : String → String → Bool) (name : String)
    (patterns : List String) :
    matchesPattern exactMatch name patterns = true
      ↔ ∃ pattern ∈ patterns, exactMatch pattern name = true := by
  induction patterns with
  | nil => simp [matchesPattern]
  | cons p rest ih =>
    by_cases h : exactMatch p name = true
    · simp [matchesPattern, h]
    · simp [matchesPattern, h, ih]

theorem matchesExtension_iff (suffix : String) (exts : List String) :
    matchesExtension suffix exts = true ↔ suffix ∈ exts := by
  induction exts with
  | nil => simp [matchesExtension]
  | cons e rest ih =>
    by_cases h : suffix = e
    · simp [matchesExtension, h]
    · simp [matchesExtension, h, ih]

theorem lexerByPattern_step (exactMatch : String → String → Bool) (lexers : QVariantMap)
    (name key : String) (rest : List String) :
    lexerByPattern exactMatch lexers name (key :: rest)
      = if (lexers.value key).toMap.contains "patterns"
            && matchesPattern exactMatch name
                (split ',' ((lexers.value key).toMap.value "patterns").toString) then some key
        else lexerByPattern exactMatch lexers name rest := rfl

theorem lexerByExtension_step (lexers : QVariantMap) (suffix key : String)
    (rest : List String) :
    lexerByExtension lexers suffix (key :: rest)
      = if (lexers.value key).toMap.contains "extensions"
            && matchesExtension suffix
                (split ',' ((lexers.value key).toMap.value "extensions").toString) then some key
        else lexerByExtension lexers suffix rest := rfl

theorem patternTest_iff (exactMatch : String → String → Bool) (lexers : QVariantMap)
    (name key : String) :
    ((lexers.value key).toMap.contains "patterns"
        && matchesPattern exactMatch name
            (split ',' ((lexers.value key).toMap.value "patterns").toString)) = true
      ↔ PatternMatch exactMatch lexers name key := by
  simp [PatternMatch, matchesPattern_iff]

theorem extensionTest_iff (lexers : QVariantMap) (suffix key : String) :
    ((lexers.value key).toMap.contains "extensions"
        && matchesExtension suffix
            (split ',' ((lexers.value key).toMap.value "extensions").toString)) = true
      ↔ ExtensionMatch lexers suffix key := by
  simp [ExtensionMatch, matchesExtension_iff]

theorem lexerByPattern_first (exactMatch : String → String → Bool) (lexers : QVariantMap)
    (name key : String) (keys : List String)
    (h : IsFirst (PatternMatch exactMatch lexers name) keys key) :
    lexerByPattern exactMatch lexers name keys = some key := by
  obtain ⟨before, after, hk, hp, hb⟩ := h
  subst hk
  induction before with
  | nil =>
    rw [List.nil_append, lexerByPattern_step, if_pos ((patternTest_iff _ _ _ _).2 hp)]
  | cons b rest ih =>
    have hnb : ¬ PatternMatch exactMatch lexers name b := hb b (by simp)
    rw [List.cons_append, lexerByPattern_step,
      if_neg (fun hc => hnb ((patternTest_iff _ _ _ _).1 hc))]
    exact ih (fun k hk => hb k (by simp [hk]))

theorem lexerByPattern_none (exactMatch : String → String → Bool) (lexers : QVariantMap)
    (name : String) (keys : List String)
    (h : ∀ k ∈ keys, ¬ PatternMatch exactMatch lexers name k) :
    lexerByPattern exactMatch lexers name keys = none := by
  induction keys with
  | nil => rfl
  | cons b rest ih =>
    have hnb : ¬ PatternMatch exactMatch lexers name b := h b (by simp)
    rw [lexerByPattern_step, if_neg (fun hc => hnb ((patternTest_iff _ _ _ _).1 hc))]
    exact ih (fun k hk => h k (by simp [hk]))

theorem lexerByExtension_first (lexers : QVariantMap) (suffix key : String)
    (keys : List String) (h : IsFirst (ExtensionMatch lexers suffix) keys key) :
    lexerByExtension lexers suffix keys = some key := by
  obtain ⟨before, after, hk, hp, hb⟩ := h
  subst hk
  induction before with
  | nil =>
    rw [List.nil_append, lexerByExtension_step, if_pos ((extensionTest_iff _ _ _).2 hp)]
  | cons b rest ih =>
    have hnb : ¬ ExtensionMatch lexers suffix b := hb b (by simp)
    rw [List.cons_append, lexerByExtension_step,
      if_neg (fun hc => hnb ((extensionTest_iff _ _ _).1 hc))]
    exact ih (fun k hk => hb k (by simp [hk]))

theorem lexerByExtension_none (lexers : QVariantMap) (suffix : String) (keys : List String)
    (h : ∀ k ∈ keys, ¬ ExtensionMatch lexers suffix k) :
    lexerByExtension lexers suffix keys = none := by
  induction keys with
  | nil => rfl
  | cons b rest ih =>
    have hnb : ¬ ExtensionMatch lexers suffix b := h b (by simp)
    rw [lexerByExtension_step, if_neg (fun hc => hnb ((extensionTest_iff _ _ _).1 hc))]
    exact ih (fun k hk => h k (by simp [hk]))

theorem exists_isFirst (P : String → Prop) (keys : List String) (h : ∃ k ∈ keys, P k) :
    ∃ key, IsFirst P keys key := by
  induction keys with
  | nil =>
    obtain ⟨k, hk, _⟩ := h
    simp at hk
  | cons a rest ih =>
    by_cases ha : P a
    · exact ⟨a, [], rest, rfl, ha, by simp⟩
    · obtain ⟨k, hk, hp⟩ := h
      have hmem : k ∈ rest := by
        rcases List.mem_cons.1 hk with h1 | h1
        · rw [h1] at hp; exact absurd hp ha
        · exact h1
      obtain ⟨key, before, after, he, hpk, hb⟩ := ih ⟨k, hmem, hp⟩
      refine ⟨key, a :: before, after, by simp [he], hpk, ?_⟩
      intro x hx
      rcases List.mem_cons.1 hx with h1 | h1
      · rw [h1]; exact ha
      · exact hb x h1

theorem lexer_unfold (exactMatch : String → String → Bool) (s : Settings) (filename : String)
    (hne : filename ≠ "") :
    s.lexer exactMatch filename
      = match lexerByPattern exactMatch s.lexers (QFileInfo.fileName filename) s.lexers.keys with
        | some key => key
        | none =>
          match lexerByExtension s.lexers (toLower (QFileInfo.suffix filename))
              s.lexers.keys with
          | some key => key
          | none => "null" := by
  have h : ¬ (filename.isEmpty = true) := fun hc => hne ((String.isEmpty_iff filename).1 hc)
  unfold Settings.lexer
  rw [if_neg h]

/-- C5, lexer precedence: for every lexers document, every wildcard matcher
and every non-empty filename, lexer(filename) is the first entry in key order
one of whose comma-separated patterns matches the file name, whenever some
entry has one, whatever the extension lists say; otherwise the first entry in
key order whose comma-separated extensions contain the lower-cased suffix of
the file; otherwise "null". With entry X declaring pattern Makefile and entry Y
declaring extension mk: Makefile resolves to X, foo.mk to Y, foo.txt to "null";
and a pattern entry wins over an earlier entry that lists the extension. -/
theorem lexer_precedence (exactMatch : String → String → Bool) (s : Settings)
    (filename : String) (hne : filename ≠ "") :
    ((∃ k ∈ s.lexers.keys, PatternMatch exactMatch s.lexers (QFileInfo.fileName filename) k) →
        ∃ key, IsFirst (PatternMatch exactMatch s.lexers (QFileInfo.fileName filename))
          s.lexers.keys key ∧ s.lexer exactMatch filename = key)
    ∧ (∀ key, IsFirst (PatternMatch exactMatch s.lexers (QFileInfo.fileName filename))
        s.lexers.keys key → s.lexer exactMatch filename = key)
    ∧ ((∀ k ∈ s.lexers.keys,
          ¬ PatternMatch exactMatch s.lexers (QFileInfo.fileName filename) k) →
        (∃ k ∈ s.lexers.keys,
          ExtensionMatch s.lexers (toLower (QFileInfo.suffix filename)) k) →
        ∃ key, IsFirst (ExtensionMatch s.lexers (toLower (QFileInfo.suffix filename)))
          s.lexers.keys key ∧ s.lexer exactMatch filename = key)
    ∧ ((∀ k ∈ s.lexers.keys,
          ¬ PatternMatch exactMatch s.lexers (QFileInfo.fileName filename) k) →
        ∀ key, IsFirst (ExtensionMatch s.lexers (toLower (QFileInfo.suffix filename)))
          s.lexers.keys key → s.lexer exactMatch filename = key)
    ∧ ((∀ k ∈ s.lexers.keys,
          ¬ PatternMatch exactMatch s.lexers (QFileInfo.fileName filename) k) →
        (∀ k ∈ s.lexers.keys,
          ¬ ExtensionMatch s.lexers (toLower (QFileInfo.suffix filename)) k) →
        s.lexer exactMatch filename = "null")
    ∧ (Settings.create sampleLexers []).lexer (wildcardMatch true) "Makefile" = "X"
    ∧ (Settings.create sampleLexers []).lexer (wildcardMatch true) "foo.mk" = "Y"
    ∧ (Settings.create sampleLexers []).lexer (wildcardMatch true) "foo.txt" = "null"
    ∧ (Settings.create overlappingLexers []).lexer (wildcardMatch true) "foo.mk" = "B" := by
  refine ⟨?_, ?_, ?_, ?_, ?_, by decide, by decide, by decide, by decide⟩
  · intro hsome
    obtain ⟨key, hfirst⟩ := exists_isFirst _ _ hsome
    refine ⟨key, hfirst, ?_⟩
    rw [lexer_unfold _ _ _ hne, lexerByPattern_first _ _ _ _ _ hfirst]
  · intro key hfirst
    rw [lexer_unfold _ _ _ hne, lexerByPattern_first _ _ _ _ _ hfirst]
  · intro hnone hsome
    obtain ⟨key, hfirst⟩ := exists_isFirst _ _ hsome
    refine ⟨key, hfirst, ?_⟩
    rw [lexer_unfold _ _ _ hne, lexerByPattern_none _ _ _ _ hnone,
      lexerByExtension_first _ _ _ _ hfirst]
  · intro hnone key hfirst
    rw [lexer_unfold _ _ _ hne, lexerByPattern_none _ _ _ _ hnone,
      lexerByExtension_first _ _ _ _ hfirst]
  · intro hnone hnone2
    rw [lexer_unfold _ _ _ hne, lexerByPattern_none _ _ _ _ hnone,
      lexerByExtension_none _ _ _ hnone2]

/-- Witness of C5: in the sample document the file Makefile meets the
pattern of the first entry X. -/
theorem lexer_precedence_witness :
    (Settings.create sampleLexers []).lexer (wildcardMatch true) "Makefile" = "X" :=
  (lexer_precedence (wildcardMatch true) (Settings.create sampleLexers []) "Makefile"
    (by decide)).2.1 "X" ⟨[], ["Y"], by decide, ⟨by decide, "Makefile", by decide, by decide⟩,
      by simp⟩

/-! ## Credential helper: host and protocol -/

theorem isNot_self (ch : Char) : isNot ch ch = false := by
  simp [isNot]

theorem isNot_of_ne (ch c : Char) (h : c ≠ ch) : isNot ch c = true := by
  simp [isNot, h]

theorem dropWhile_ne_of_mem (ch : Char) (l : List Char) (h : ch ∈ l) :
    ∃ rest, l.dropWhile (isNot ch) = ch :: rest
      ∧ l = l.takeWhile (isNot ch) ++ ch :: rest := by
  induction l with
  | nil => simp at h
  | cons x xs ih =>
    by_cases hx : x = ch
    · subst hx
      exact ⟨xs, by simp [List.dropWhile, isNot_self], by simp [List.takeWhile, isNot_self]⟩
    · have hmem : ch ∈ xs := by
        rcases List.mem_cons.1 h with h1 | h1
        · exact absurd h1.symm hx
        · exact h1
      obtain ⟨rest, h1, h2⟩ := ih hmem
      refine ⟨rest, ?_, ?_⟩
      · simp only [List.dropWhile, isNot_of_ne ch x hx]
        exact h1
      · simp only [List.takeWhile, isNot_of_ne ch x hx, List.cons_append]
        exact congrArg (List.cons x) h2

theorem takeWhile_ne_append (ch x : Char) (pre rest : List Char) (hpre : ch ∉ pre)
    (hx : x ≠ ch) :
    (pre ++ x :: rest).takeWhile (isNot ch) = pre ++ x :: rest.takeWhile (isNot ch) := by
  induction pre with
  | nil => simp only [List.nil_append, List.takeWhile, isNot_of_ne ch x hx]
  | cons p ps ih =>
    have hp : p ≠ ch := fun h => hpre (by simp [h])
    have hps : ch ∉ ps := fun h => hpre (by simp [h])
    rw [List.cons_append, List.takeWhile_cons, isNot_of_ne ch p hp, if_pos rfl, ih hps,
      List.cons_append]

theorem takeWhile_ne_of_not_mem (ch : Char) (l : List Char) (h : ch ∉ l) :
    l.takeWhile (isNot ch) = l := by
  induction l with
  | nil => rfl
  | cons x xs ih =>
    have hx : x ≠ ch := fun hc => h (by simp [hc])
    have hxs : ch ∉ xs := fun hc => h (by simp [hc])
    simp only [List.takeWhile, isNot_of_ne ch x hx, ih hxs]

theorem take_length_takeWhile (p : Char → Bool) (l : List Char) :
    l.take (l.takeWhile p).length = l.takeWhile p := by
  induction l with
  | nil => rfl
  | cons x xs ih =>
    by_cases hx : p x = true
    · simp [List.takeWhile, hx, ih]
    · simp [List.takeWhile, hx]

theorem length_takeWhile_le (p : Char → Bool) (l : List Char) :
    (l.takeWhile p).length ≤ l.length := by
  induction l with
  | nil => simp
  | cons x xs ih =>
    by_cases hx : p x = true
    · simp [List.takeWhile, hx, ih]
    · simp [List.takeWhile, hx]

theorem mid_of_nonneg (s : String) (position n : Nat) (hp : position ≤ s.data.length)
    (hn : n ≤ s.data.length - position) :
    mid s (position : Int) (n : Int) = String.mk ((s.data.drop position).take n) := by
  unfold mid
  have h1 : ¬ ((position : Int) > (s.data.length : Int)) := by omega
  have h2 : ¬ ((position : Int) < 0) := by omega
  have h3 : ¬ ((n : Int) < 0 ∨ (n : Int) > (s.data.length : Int) - (position : Int)) := by omega
  simp only [h1, h2, h3, if_false, Int.toNat_ofNat]

theorem mid_of_neg (s : String) (position : Nat) (n : Int) (hp : position ≤ s.data.length)
    (hn : n < 0) :
    mid s (position : Int) n = String.mk (s.data.drop position) := by
  unfold mid
  have h1 : ¬ ((position : Int) > (s.data.length : Int)) := by omega
  have h2 : ¬ ((position : Int) < 0) := by omega
  have h3 : (n < 0 ∨ n > (s.data.length : Int) - (position : Int)) := Or.inl hn
  have h4 : ((s.data.length : Int) - (position : Int)).toNat = s.data.length - position := by
    omega
  simp only [h1, h2, h3, if_false, if_true, Int.toNat_ofNat, h4]
  congr 1
  rw [List.take_of_length_le]
  simp

theorem host_fallback (url : String) (hat : '@' ∈ url.data)
    (hcolon : ':' ∉ url.data.takeWhile (isNot '@')) :
    mid url (indexOf url '@' + 1) (indexOf url ':' - (indexOf url '@' + 1))
      = specHostBetween url := by
  obtain ⟨rest, hdrop, hsplit⟩ := dropWhile_ne_of_mem '@' url.data hat
  generalize hpre : url.data.takeWhile (isNot '@') = pre at hsplit hcolon
  have hbetween : specHostBetween url
      = String.mk (rest.takeWhile (isNot ':')) := by
    simp only [specHostBetween, hdrop, List.drop_succ_cons, List.drop_zero]
  have hidxAt : indexOf url '@' = (pre.length : Int) := by
    simp only [indexOf, hat, if_true, hpre]
  have hlen : url.data.length = pre.length + 1 + rest.length := by
    rw [hsplit]; simp; omega
  have hdropAll : url.data.drop (pre.length + 1) = rest := by
    rw [hsplit]
    have : pre.length + 1 = (pre ++ ['@']).length := by simp
    rw [this, show pre ++ '@' :: rest = (pre ++ ['@']) ++ rest by simp, List.drop_left]
  rw [hbetween, hidxAt]
  by_cases hc : ':' ∈ url.data
  · have htw : url.data.takeWhile (isNot ':')
        = pre ++ '@' :: rest.takeWhile (isNot ':') := by
      rw [hsplit]
      exact takeWhile_ne_append ':' '@' pre rest hcolon (by decide)
    have hidx : indexOf url ':'
        = ((pre.length + 1 + (rest.takeWhile (isNot ':')).length : Nat) : Int) := by
      simp only [indexOf, hc, if_true, htw, List.length_append, List.length_cons]
      push_cast; omega
    rw [hidx]
    have hle : (rest.takeWhile (isNot ':')).length ≤ rest.length :=
      length_takeWhile_le _ _
    have e1 : ((pre.length : Int) + 1) = ((pre.length + 1 : Nat) : Int) := by push_cast; rfl
    have e2 : ((pre.length + 1 + (rest.takeWhile (isNot ':')).length : Nat) : Int)
        - ((pre.length + 1 : Nat) : Int)
        = (((rest.takeWhile (isNot ':')).length : Nat) : Int) := by
      push_cast; omega
    rw [e1, e2, mid_of_nonneg _ _ _ (by omega) (by omega), hdropAll, take_length_takeWhile]
  · have hidx : indexOf url ':' = -1 := by simp only [indexOf, hc, if_false]
    have hrest : ':' ∉ rest := by
      intro h
      apply hc
      rw [hsplit]
      simp [h]
    have e1 : ((pre.length : Int) + 1) = ((pre.length + 1 : Nat) : Int) := by push_cast; rfl
    rw [hidx, e1, mid_of_neg _ _ _ (by omega) (by omega), hdropAll,
      takeWhile_ne_of_not_mem ':' rest hrest]

/-- C6, as stated, fails for a URL with a colon before the `@`: for
user:pw@example.com:repo.git, which parses to an empty host, the text between
the `@` and the next colon is example.com, but host takes the first colon of the
whole URL as the end, calls mid with a negative length and returns
example.com:repo.git. -/
theorem host_extraction_counterexample :
    QUrl.host "user:pw@example.com:repo.git" = ""
    ∧ specHostBetween "user:pw@example.com:repo.git" = "example.com"
    ∧ host QUrl.host "user:pw@example.com:repo.git" = "example.com:repo.git"
    ∧ host QUrl.host "user:pw@example.com:repo.git"
        ≠ specHostBetween "user:pw@example.com:repo.git" := by
  decide

/-- C6, amended, credential host extraction: for every URL parser and every
URL that parses to an empty host, contains an `@` and has no colon before its
first `@`, host(url) is the text strictly between that `@` and the first colon
after it; a non-empty parsed host is returned as it is; protocol(url) is the
URL scheme, or "ssh" when there is none. So git@github.com:org/repo.git gives
host github.com and protocol ssh, and the URL https://example.com/repo.git
gives host example.com and protocol https. -/
theorem host_extraction (urlHost urlScheme : String → String) (url : String)
    (hempty : urlHost url = "") (hat : '@' ∈ url.data)
    (hcolon : ':' ∉ url.data.takeWhile (isNot '@')) :
    host urlHost url = specHostBetween url
    ∧ (∀ other : String, urlHost other ≠ "" → host urlHost other = urlHost other)
    ∧ protocol urlScheme url = (if urlScheme url = "" then "ssh" else urlScheme url)
    ∧ host QUrl.host "git@github.com:org/repo.git" = "github.com"
    ∧ protocol QUrl.scheme "git@github.com:org/repo.git" = "ssh"
    ∧ host QUrl.host "https://example.com/repo.git" = "example.com"
    ∧ protocol QUrl.scheme "https://example.com/repo.git" = "https" := by
  refine ⟨?_, ?_, ?_, by decide, by decide, by decide, by decide⟩
  · have h : ¬ ((!(urlHost url).isEmpty) = true) := by
      rw [hempty]; decide
    unfold host
    simp only [h, if_false]
    exact host_fallback url hat hcolon
  · intro other hother
    have h : (!(urlHost other).isEmpty) = true := by
      have : ¬ ((urlHost other).isEmpty = true) :=
        fun hc => hother ((String.isEmpty_iff _).1 hc)
      simpa using this
    unfold host
    simp only [h, if_true]
  · unfold protocol
    by_cases hs : urlScheme url = ""
    · rw [hs]; decide
    · have h : (!(urlScheme url).isEmpty) = true := by
        have : ¬ ((urlScheme url).isEmpty = true) :=
          fun hc => hs ((String.isEmpty_iff _).1 hc)
        simpa using this
      simp only [h, if_true, hs, if_false]

/-- Witness of C6 amended: the shorthand git@github.com:org/repo.git. -/
theorem host_extraction_witness :
    host QUrl.host "git@github.com:org/repo.git" = specHostBetween "git@github.com:org/repo.git" :=
  (host_extraction QUrl.host QUrl.scheme "git@github.com:org/repo.git" (by decide) (by decide)
    (by decide)).1

/-! ## Credential helper: response parsing -/

theorem splitChars_of_not_mem (sep : Char) (l : List Char) (h : sep ∉ l) :
    splitChars sep l = [l] := by
  induction l with
  | nil => rfl
  | cons x xs ih =>
    have hx : x ≠ sep := fun hc => h (by simp [hc])
    have hxs : sep ∉ xs := fun hc => h (by simp [hc])
    simp [splitChars, hx, ih hxs]

theorem splitChars_not_mem (sep : Char) (l : List Char) :
    ∀ part ∈ splitChars sep l, sep ∉ part := by
  induction l with
  | nil => simp [splitChars]
  | cons x xs ih =>
    by_cases hx : x = sep
    · intro part hp
      simp only [splitChars, hx, if_true, List.mem_cons] at hp
      rcases hp with h1 | h1
      · rw [h1]; simp
      · exact ih part h1
    · cases hs : splitChars sep xs with
      | nil => exact absurd hs (splitChars_ne_nil sep xs)
      | cons h t =>
        rw [hs] at ih
        intro part hp
        simp only [splitChars, hx, if_false, hs, List.mem_cons] at hp
        rcases hp with h1 | h1
        · rw [h1]
          intro hmem
          rcases List.mem_cons.1 hmem with h2 | h2
          · exact hx h2.symm
          · exact ih h (by simp) h2
        · exact ih part (by simp [h1])

theorem length_splitChars (sep : Char) (l : List Char) :
    (splitChars sep l).length = l.count sep + 1 := by
  induction l with
  | nil => simp [splitChars]
  | cons x xs ih =>
    by_cases hx : x = sep
    · subst hx
      simp [splitChars, ih]
    · cases hs : splitChars sep xs with
      | nil => exact absurd hs (splitChars_ne_nil sep xs)
      | cons h t =>
        rw [hs] at ih
        have hc : (x :: xs).count sep = xs.count sep := by
          rw [List.count_cons]
          simp [hx]
        simp only [splitChars, hx, if_false, hs, hc]
        simpa using ih

theorem split_append_sep (sep : Char) (a b : String) :
    split sep (a ++ String.mk [sep] ++ b) = split sep a ++ split sep b := by
  have h : (a ++ String.mk [sep] ++ b).data = a.data ++ sep :: b.data := by
    simp [String.data_append]
  simp [split, h, splitChars_append_sep]

theorem split_of_not_mem (sep : Char) (s : String) (h : sep ∉ s.data) :
    split sep s = [s] := by
  simp [split, splitChars_of_not_mem sep s.data h]

theorem parseLine_malformed (fields : String × String) (line : String)
    (h : GitCredential.isMalformed line = true) :
    GitCredential.parseLine fields line = fields := by
  have hlen : (split '=' line).length ≠ 2 := by
    simp only [split, List.length_map, length_splitChars]
    have : line.data.count '=' ≠ 1 := by simpa [GitCredential.isMalformed] using h
    omega
  simp only [GitCredential.parseLine, hlen, ne_eq, not_false_eq_true, if_true]

theorem parseLine_field (fields : String × String) (key v : String)
    (hk : '=' ∉ key.data) (hv : '=' ∉ v.data) :
    GitCredential.parseLine fields (key ++ String.mk ['='] ++ v)
      = if key = "username" then (v, fields.2)
        else if key = "password" then (fields.1, v)
        else fields := by
  have hs : split '=' (key ++ String.mk ['='] ++ v) = [key, v] := by
    rw [split_append_sep, split_of_not_mem _ _ hk, split_of_not_mem _ _ hv]
    rfl
  simp only [GitCredential.parseLine, hs]
  simp

theorem foldl_parseLine_filter (lines : List String) :
    ∀ fields : String × String,
      (lines.filter (fun line => !GitCredential.isMalformed line)).foldl
          GitCredential.parseLine fields
        = lines.foldl GitCredential.parseLine fields := by
  induction lines with
  | nil => intro fields; rfl
  | cons line rest ih =>
    intro fields
    by_cases hm : GitCredential.isMalformed line = true
    · simp only [List.filter, hm, Bool.not_true, List.foldl_cons,
        parseLine_malformed fields line hm]
      exact ih fields
    · have hm2 : GitCredential.isMalformed line = false := by simpa using hm
      simp only [List.filter, hm2, Bool.not_false, List.foldl_cons]
      exact ih _

theorem split_join (sep : Char) (lines : List String) (hne : lines ≠ [])
    (h : ∀ line ∈ lines, sep ∉ line.data) :
    split sep (join (String.mk [sep]) lines) = lines := by
  induction lines with
  | nil => exact absurd rfl hne
  | cons a rest ih =>
    cases rest with
    | nil => simpa [join] using split_of_not_mem sep a (h a (by simp))
    | cons b r =>
      have hj : join (String.mk [sep]) (a :: b :: r)
          = a ++ String.mk [sep] ++ join (String.mk [sep]) (b :: r) := rfl
      rw [hj, split_append_sep, split_of_not_mem sep a (h a (by simp)),
        ih (by simp) (fun line hl => h line (by simp [hl]))]
      rfl

theorem split_parts_not_mem (sep : Char) (s : String) :
    ∀ line ∈ split sep s, sep ∉ line.data := by
  intro line hl
  simp only [split, List.mem_map] at hl
  obtain ⟨part, hp, rfl⟩ := hl
  exact splitChars_not_mem sep s.data part hp

theorem parseOutput_deleteMalformed (output : String) (fields : String × String) :
    (split '\n' (GitCredential.deleteMalformed output)).foldl GitCredential.parseLine fields
      = (split '\n' output).foldl GitCredential.parseLine fields := by
  unfold GitCredential.deleteMalformed
  have hsep : ("\n" : String) = String.mk ['\n'] := rfl
  cases hf : (split '\n' output).filter (fun line => !GitCredential.isMalformed line) with
  | nil =>
    rw [← foldl_parseLine_filter (split '\n' output) fields, hf]
    have h1 : split '\n' (join "\n" []) = [""] := by decide
    rw [h1]
    simp only [List.foldl_cons, List.foldl_nil]
    exact parseLine_malformed fields "" (by decide)
  | cons a rest =>
    have hmem : ∀ line ∈ a :: rest, '\n' ∉ line.data := by
      intro line hl
      rw [← hf] at hl
      exact split_parts_not_mem '\n' output line (List.mem_of_mem_filter hl)
    rw [hsep, split_join '\n' (a :: rest) (by simp) hmem, ← hf, foldl_parseLine_filter]

/-- C7, as stated, fails for a value that contains `=`: the line
password=a=b splits into three components, is skipped, and leaves the password
as it was; likewise for username=a=b. -/
theorem response_field_counterexample :
    GitCredential.get true "password=a=b" "" "" = (true, "", "")
    ∧ (GitCredential.get true "password=a=b" "" "").2.2 ≠ "a=b"
    ∧ (GitCredential.get true "username=a=b" "" "").2.1 ≠ "a=b" := by
  decide

/-- C7, amended, response field parsing in get: an output line with exactly
one `=` is split into key and value at that `=`; for every value text v without
`=` and without line break, a line password=v sets the returned password to v
and a line username=v sets the returned username to v, both as the only line of
the output and as the line that follows any earlier output. -/
theorem response_field_parsing (before v username password : String)
    (hv : '=' ∉ v.data) (hn : '\n' ∉ v.data) :
    GitCredential.get true ("password=" ++ v) username password = (true, username, v)
    ∧ GitCredential.get true ("username=" ++ v) username password = (true, v, password)
    ∧ GitCredential.get true (before ++ "\n" ++ ("password=" ++ v)) username password
        = (true, (GitCredential.get true before username password).2.1, v)
    ∧ GitCredential.get true (before ++ "\n" ++ ("username=" ++ v)) username password
        = (true, v, (GitCredential.get true before username password).2.2) := by
  have hp : ∀ fields : String × String,
      GitCredential.parseLine fields ("password=" ++ v) = (fields.1, v) := by
    intro fields
    have h := parseLine_field fields "password" v (by decide) hv
    have he : "password" ++ String.mk ['='] ++ v = "password=" ++ v := by
      rw [String.append_assoc]; rfl
    rw [he] at h
    rw [h, if_neg (by decide), if_pos rfl]
  have hu : ∀ fields : String × String,
      GitCredential.parseLine fields ("username=" ++ v) = (v, fields.2) := by
    intro fields
    have h := parseLine_field fields "username" v (by decide) hv
    have he : "username" ++ String.mk ['='] ++ v = "username=" ++ v := by
      rw [String.append_assoc]; rfl
    rw [he] at h
    rw [h, if_pos rfl]
  have hlp : split '\n' ("password=" ++ v) = ["password=" ++ v] := by
    apply split_of_not_mem
    rw [String.data_append]
    intro hmem
    rcases List.mem_append.1 hmem with h1 | h1
    · revert h1; decide
    · exact hn h1
  have hlu : split '\n' ("username=" ++ v) = ["username=" ++ v] := by
    apply split_of_not_mem
    rw [String.data_append]
    intro hmem
    rcases List.mem_append.1 hmem with h1 | h1
    · revert h1; decide
    · exact hn h1
  have hsp : ∀ line : String,
      split '\n' (before ++ "\n" ++ line) = split '\n' before ++ split '\n' line :=
    fun line => split_append_sep '\n' before line
  refine ⟨?_, ?_, ?_, ?_⟩
  · simp [GitCredential.get, hlp, hp]
  · simp [GitCredential.get, hlu, hu]
  · simp [GitCredential.get, hsp, hlp, hp, List.foldl_append]
  · simp [GitCredential.get, hsp, hlu, hu, List.foldl_append]

/-- Witness of C7 amended: the password s3cret after a username line. -/
theorem response_field_parsing_witness :
    GitCredential.get true ("username=bob" ++ "\n" ++ ("password=" ++ "s3cret")) "" ""
      = (true, (GitCredential.get true "username=bob" "" "").2.1, "s3cret") :=
  (response_field_parsing "username=bob" "s3cret" "" "" (by decide) (by decide)).2.2.1

/-- C8, protocol tolerance: for every helper output, deleting all lines
that have no `=` or more than one `=` does not change the result of get; such a
line leaves username and password as they are, so parsing goes on with the
lines after it; and a line with an unrecognized key changes nothing. -/
theorem protocol_tolerance (started : Bool) (output username password : String) :
    GitCredential.get started (GitCredential.deleteMalformed output) username password
      = GitCredential.get started output username password
    ∧ (∀ (fields : String × String) (line : String),
        GitCredential.isMalformed line = true → GitCredential.parseLine fields line = fields)
    ∧ (∀ (fields : String × String) (line : String) (rest : List String),
        GitCredential.isMalformed line = true →
        (line :: rest).foldl GitCredential.parseLine fields
          = rest.foldl GitCredential.parseLine fields)
    ∧ (∀ (fields : String × String) (line : String),
        (split '=' line).headD "" ≠ "username" → (split '=' line).headD "" ≠ "password" →
        GitCredential.parseLine fields line = fields) := by
  refine ⟨?_, parseLine_malformed, ?_, ?_⟩
  · cases started with
    | false => rfl
    | true => simp [GitCredential.get, parseOutput_deleteMalformed]
  · intro fields line rest hm
    rw [List.foldl_cons, parseLine_malformed fields line hm]
  · intro fields line h1 h2
    simp only [GitCredential.parseLine]
    split
    · rfl
    · simp [h1, h2]

/-- Witness of C8: a response with a line without `=` and a line with two
`=` between the username and the password line. -/
theorem protocol_tolerance_witness :
    GitCredential.get true
        (GitCredential.deleteMalformed "username=bob\nwarning\na=b=c\npassword=s3cret\n") "" ""
      = GitCredential.get true "username=bob\nwarning\na=b=c\npassword=s3cret\n" "" ""
    ∧ GitCredential.parseLine ("bob", "") "a=b=c" = ("bob", "") :=
  ⟨(protocol_tolerance true "username=bob\nwarning\na=b=c\npassword=s3cret\n" "" "").1,
   (protocol_tolerance true "" "" "").2.1 ("bob", "") "a=b=c" (by decide)⟩


end GitAhead
